import Mathlib

/-!
Verification of the MCP filesystem server (`fileSystemMCP.py`).

The development shallowly embeds the server's core logic:
  * the path-containment sandbox (`validate_path`),
  * the functional filesystem the tools mutate,
  * the tool executors `write_file`, `fetch`, `shell`, `apply_patch`,
  * the JSON-RPC message router.

Modelling conventions:
  * A resolved absolute POSIX path is a `List String` of components
    (the empty list is the filesystem root `/`).  The filesystem model
    is symlink-free, so `Path.resolve()` is the lexical normalisation
    `resolveComps`.
  * Python `str` values are Lean `String`s; operations that Python
    performs on code points (slicing, `find`, `strip`) are modelled on
    the underlying `List Char`.
  * Fallible Python code (raised exceptions) is modelled with
    `Except ToolErr`.
  * External effects (subprocess execution, `shlex.split`, the ambient
    environment) enter as explicit parameters, so theorems quantify
    over their behaviour.
-/

/-- Python exception values raised by the tool handlers: `ValueError`,
`PermissionError`, and the OS errors `write_text`/`mkdir` can raise. -/
inductive ToolErr where
  | valueError (msg : String)
  | permissionError (msg : String)
  | isADirectoryError
  | fileExistsError
  | typeError
  deriving DecidableEq, Repr

instance {ε α : Type} [DecidableEq ε] [DecidableEq α] : DecidableEq (Except ε α) := fun x y =>
  match x, y with
  | Except.ok a, Except.ok b =>
    if h : a = b then Decidable.isTrue (by rw [h]) else Decidable.isFalse (by simp [h])
  | Except.ok _, Except.error _ => Decidable.isFalse (by simp)
  | Except.error _, Except.ok _ => Decidable.isFalse (by simp)
  | Except.error e, Except.error f =>
    if h : e = f then Decidable.isTrue (by rw [h]) else Decidable.isFalse (by simp [h])

/-- `s.startswith(pre)` on Python strings (a code-point prefix test). -/
def startswith (s pre : String) : Bool :=
  pre.data.isPrefixOf s.data

/-- Whether a POSIX path string is absolute (`os.path.isabs`). -/
def isAbsPath (s : String) : Bool :=
  match s.data with
  | '/' :: _ => true
  | _ => false

/-- Split a path string at `/` characters, one accumulator pass. -/
def splitCompsAux : List Char → List Char → List String
  | [], cur => [String.mk cur.reverse]
  | c :: t, cur =>
    if c = '/' then String.mk cur.reverse :: splitCompsAux t []
    else splitCompsAux t (c :: cur)

/-- The path components of a path string, empty components dropped
(`PurePosixPath` collapses duplicate separators). -/
def splitComps (s : String) : List String :=
  (splitCompsAux s.data []).filter (fun c => c ≠ "")

/-- One step of lexical path resolution: `.` and empty components are
dropped, `..` removes the last component (`/..` stays at `/`). -/
def resolveStep (acc : List String) (c : String) : List String :=
  if c = "" ∨ c = "." then acc
  else if c = ".." then acc.dropLast
  else acc ++ [c]

/-- Lexical normalisation of a component sequence: the component list of
`Path(...).resolve()` on a symlink-free filesystem. -/
def resolveComps (cs : List String) : List String :=
  cs.foldl resolveStep []

/-- Concatenate path components with `/` separators. -/
def joinComps : List String → List Char
  | [] => []
  | [p] => p.data
  | p :: q :: t => p.data ++ '/' :: joinComps (q :: t)

/-- `str(path)` for a resolved absolute path. -/
def pathStr (p : List String) : String :=
  String.mk ('/' :: joinComps p)

/-- Model of `validate_path` (src/fileSystemMCP.py lines 469-473): an
absolute user path is resolved directly, a relative one is resolved
against the sandbox root `root`; the containment check is Python's
`str(abs_path).startswith(str(self.allowed_directory))`, a string-prefix
test on the rendered paths. -/
def validate_path (root : List String) (user_path : String) :
    Except ToolErr (List String) :=
  let abs_path :=
    if isAbsPath user_path then resolveComps (splitComps user_path)
    else resolveComps (root ++ splitComps user_path)
  if startswith (pathStr abs_path) (pathStr root) then Except.ok abs_path
  else Except.error (ToolErr.permissionError "Path outside allowed directory")

/-- Functional model of the filesystem under the server: an association
list of text files (resolved path ↦ decoded content) and a list of
directory paths.  Contents are the Unicode text the server wrote; on
disk they are UTF-8 encoded, so a file's `st_size` is the content's
UTF-8 byte count. -/
structure FS where
  files : List (List String × String)
  dirs : List (List String)
  deriving DecidableEq, Repr

/-- The decoded content of the file at resolved path `p`, if present. -/
def lookupFile (fs : FS) (p : List String) : Option String :=
  (fs.files.find? (fun kv => decide (kv.1 = p))).map (fun kv => kv.2)

/-- `path.is_dir()`. -/
def isDirFS (fs : FS) (p : List String) : Bool :=
  fs.dirs.any (fun d => decide (d = p))

/-- `path.exists()`. -/
def fsExists (fs : FS) (p : List String) : Bool :=
  (lookupFile fs p).isSome || isDirFS fs p

/-- Every prefix of a component path, shortest first, including the
filesystem root `[]` and the path itself. -/
def prefixesIncl : List String → List (List String)
  | [] => [[]]
  | c :: t => [] :: (prefixesIncl t).map (fun q => c :: q)

/-- `d.mkdir(parents=True, exist_ok=True)`: creates `d` and all missing
ancestors; raises if `d` or an ancestor already exists as a file. -/
def mkdirP (fs : FS) (d : List String) : Except ToolErr FS :=
  if (prefixesIncl d).any (fun q => (lookupFile fs q).isSome) then
    Except.error ToolErr.fileExistsError
  else Except.ok { fs with dirs := prefixesIncl d ++ fs.dirs }

/-- `path.write_text(content, encoding="utf-8")`: full overwrite.  On
Linux text mode writes `\n` unchanged, so the stored text is `content`
verbatim.  Raises if `path` is a directory or its parent is missing. -/
def write_text (fs : FS) (p : List String) (content : String) : Except ToolErr FS :=
  if isDirFS fs p then Except.error ToolErr.isADirectoryError
  else if ¬ isDirFS fs p.dropLast then
    Except.error (ToolErr.valueError "No such file or directory")
  else Except.ok
    { fs with files := (p, content) :: fs.files.filter (fun kv => decide (kv.1 ≠ p)) }

/-- Result dict of the `write_file` tool. -/
structure WriteResult where
  success : Bool
  message : String
  path : String
  deriving DecidableEq, Repr

/-- Model of `handle_write_file` (src lines 440-446). -/
def handle_write_file (root : List String) (fs : FS) (dest content : String) :
    Except ToolErr (FS × WriteResult) :=
  if dest = "" then Except.error (ToolErr.valueError "File path is required")
  else match validate_path root dest with
  | Except.error e => Except.error e
  | Except.ok path =>
    match mkdirP fs path.dropLast with
    | Except.error e => Except.error e
    | Except.ok fs1 =>
      match write_text fs1 path content with
      | Except.error e => Except.error e
      | Except.ok fs2 =>
        Except.ok (fs2,
          { success := true,
            message := "Wrote " ++ toString content.length ++ " bytes to " ++ dest,
            path := dest })

/-- Universal-newline translation performed by `Path.read_text` (text
mode, `newline=None`): `\r\n` and lone `\r` both become `\n`. -/
def univNL : List Char → List Char
  | [] => []
  | '\r' :: '\n' :: t => '\n' :: univNL t
  | '\r' :: t => '\n' :: univNL t
  | c :: t => c :: univNL t

/-- `s.lower()` (ASCII case fold in the model). -/
def lowerStr (s : String) : String :=
  String.mk (s.data.map Char.toLower)

/-- Lexicographic comparison of code-point sequences (Python `str` `<=`). -/
def lexLeChars : List Char → List Char → Bool
  | [], _ => true
  | _ :: _, [] => false
  | a :: as, b :: bs => if a = b then lexLeChars as bs else decide (a < b)

/-- Python's sort key `(not p.is_dir(), p.name.lower())` as a total
order on `(name, isDir)` entries: directories first, then by
case-folded name. -/
def entryLe (a b : String × Bool) : Bool :=
  if a.2 = b.2 then lexLeChars (lowerStr a.1).data (lowerStr b.1).data
  else a.2

/-- Stable insertion into a sorted list: ties keep the inserted element
first, matching `foldr`-driven stable insertion sort. -/
def insertSorted {α : Type} (le : α → α → Bool) (x : α) : List α → List α
  | [] => [x]
  | y :: t => if le x y then x :: y :: t else y :: insertSorted le x t

/-- Stable sort by a boolean total order (models Python `sorted`). -/
def sortByLe {α : Type} (le : α → α → Bool) (l : List α) : List α :=
  l.foldr (insertSorted le) []

/-- Names of the immediate child directories of `p` (from `iterdir`). -/
def childNamesD (fs : FS) (p : List String) : List String :=
  ((fs.dirs.filter (fun d => decide (d.dropLast = p) && decide (d ≠ []))).map
    (fun d => d.getLast?.getD "")).dedup

/-- Names of the immediate child files of `p` (from `iterdir`). -/
def childNamesF (fs : FS) (p : List String) : List String :=
  ((fs.files.filter (fun kv => decide (kv.1.dropLast = p) && decide (kv.1 ≠ []))).map
    (fun kv => kv.1.getLast?.getD "")).dedup

/-- The `(name, isDir)` entries `iterdir` yields for directory `p`. -/
def childEntries (fs : FS) (p : List String) : List (String × Bool) :=
  (childNamesD fs p).map (fun n => (n, true)) ++ (childNamesF fs p).map (fun n => (n, false))

/-- One listing line: `f"{'[DIR] ' if item.is_dir() else ''}{item.name}"`. -/
def renderEntry (e : String × Bool) : String :=
  (if e.2 then "[DIR] " else "") ++ e.1

/-- The sorted listing lines `handle_fetch` builds for a directory. -/
def dirListing (fs : FS) (p : List String) : List String :=
  (sortByLe entryLe (childEntries fs p)).map renderEntry

/-- The `metadata` dict of a `fetch` result. -/
inductive FetchMeta where
  | directory
  | file (size : Nat)
  deriving DecidableEq, Repr

/-- Result dict of the `fetch` tool. -/
structure FetchResult where
  id : String
  title : String
  text : String
  url : String
  metadata : FetchMeta
  deriving DecidableEq, Repr

/-- Model of `handle_fetch` (src lines 420-438).  The
`UnicodeDecodeError` fallback (line 436-437) is unreachable here
because modelled files store already-decoded text. -/
def handle_fetch (root : List String) (fs : FS) (file_id : String) :
    Except ToolErr FetchResult :=
  if file_id = "" then Except.error (ToolErr.valueError "File ID is required")
  else match validate_path root file_id with
  | Except.error e => Except.error e
  | Except.ok path =>
    if ¬ fsExists fs path then Except.error (ToolErr.valueError ("Not found: " ++ file_id))
    else if isDirFS fs path then
      Except.ok
        { id := file_id, title := path.getLast?.getD "",
          text := "Directory: " ++ file_id ++ "\n\nContents:\n" ++
            String.intercalate "\n" (dirListing fs path),
          url := "file://" ++ pathStr path, metadata := FetchMeta.directory }
    else match lookupFile fs path with
      | none => Except.error (ToolErr.valueError ("Not found: " ++ file_id))
      | some content =>
        if content.utf8ByteSize > 1024 * 1024 then
          Except.error (ToolErr.valueError "File too large (limit 1MB)")
        else
          Except.ok
            { id := file_id, title := path.getLast?.getD "",
              text := String.mk (univNL content.data),
              url := "file://" ++ pathStr path,
              metadata := FetchMeta.file content.utf8ByteSize }

/-- Auxiliary scan for substring search: index of the first position
(counted from `i`) where `pat` is a prefix of the remaining text. -/
def findIdxAux (pat : List Char) : List Char → Nat → Option Nat
  | [], i => if pat = [] then some i else none
  | l@(_ :: t), i => if pat.isPrefixOf l then some i else findIdxAux pat t (i + 1)

/-- Python `s.find(sub, start)`: position of the first occurrence of
`sub` at an index `≥ start`, or `none` (Python's `-1`). -/
def findFrom (l pat : List Char) (start : Nat) : Option Nat :=
  (findIdxAux pat (l.drop start) 0).map (fun j => j + start)

/-- Python slice `l[a:b]` for nonnegative bounds. -/
def sliceL (l : List Char) (a b : Nat) : List Char :=
  (l.take b).drop a

/-- Remove the characters satisfying `p` from both ends. -/
def stripBoth (p : Char → Bool) (l : List Char) : List Char :=
  ((l.dropWhile p).reverse.dropWhile p).reverse

/-- Python `s.strip()` (whitespace at both ends). -/
def stripWS (l : List Char) : List Char :=
  stripBoth Char.isWhitespace l

/-- Python `s.strip("\n")` as used on a patch block's body. -/
def stripNLs (l : List Char) : List Char :=
  stripBoth (fun c => c = '\n') l

/-- `"*** Begin Patch"` (15 characters). -/
def beginMarker : List Char := "*** Begin Patch".data

/-- `"*** End Patch"` (13 characters). -/
def endMarker : List Char := "*** End Patch".data

/-- `"*** Update File:"` (16 characters). -/
def updateHdr : List Char := "*** Update File:".data

/-- `file_path.relative_to(root)`, rendered with `str` (`"."` when the
paths are equal); raises `ValueError` when `root` is not a component
prefix of `p`.  The message text is a model placeholder. -/
def relativeTo (p root : List String) : Except ToolErr String :=
  if root.isPrefixOf p then
    Except.ok
      (if p.drop root.length = [] then "."
       else String.intercalate "/" (p.drop root.length))
  else
    Except.error (ToolErr.valueError (pathStr p ++ " is not in the subpath of " ++ pathStr root))

/-- Result dict of the `apply_patch` tool. -/
structure PatchResult where
  success : Bool
  updated : List String
  deriving DecidableEq, Repr

/-- The inner section loop of `handle_apply_patch` (src lines 363-387):
scan `block` for `"*** Update File:"` headers from position `pos`,
writing each section's content through the sandbox and appending the
root-relative path to `acc`.  The filesystem reached so far is returned
even when an exception aborts the loop (writes already performed
persist).  `fuel` bounds the iteration count; each step advances `pos`
by at least the header length, so `block.length + 1` steps suffice. -/
def applySectionsF (root : List String) :
    Nat → List Char → FS → List String → Nat → FS × Except ToolErr (List String)
  | 0, _, fs, acc, _ => (fs, Except.ok acc)
  | fuel + 1, block, fs, acc, pos =>
    match findFrom block updateHdr pos with
    | none => (fs, Except.ok acc)
    | some uh =>
      let next_uh := findFrom block updateHdr (uh + updateHdr.length)
      let file_block := sliceL block uh (next_uh.getD block.length)
      match findFrom file_block ['\n'] 0 with
      | none =>
        (fs, Except.error
          (ToolErr.valueError "Malformed update header (no newline after file path)"))
      | some first_line_end =>
        let header := stripWS (file_block.take first_line_end)
        if ¬ updateHdr.isPrefixOf header then
          (fs, Except.error (ToolErr.valueError "Malformed update header"))
        else
          let rel_path := String.mk (stripWS (header.drop updateHdr.length))
          let new_content := String.mk (file_block.drop (first_line_end + 1))
          match validate_path root rel_path with
          | Except.error e => (fs, Except.error e)
          | Except.ok file_path =>
            match mkdirP fs file_path.dropLast with
            | Except.error e => (fs, Except.error e)
            | Except.ok fs1 =>
              match write_text fs1 file_path new_content with
              | Except.error e => (fs1, Except.error e)
              | Except.ok fs2 =>
                match relativeTo file_path root with
                | Except.error e => (fs2, Except.error e)
                | Except.ok rel =>
                  applySectionsF root fuel block fs2 (acc ++ [rel])
                    (next_uh.getD block.length)

/-- The outer block loop of `handle_apply_patch` (src lines 352-361):
find each `"*** Begin Patch"` from `idx`, require a matching
`"*** End Patch"`, strip newlines from the enclosed body and run the
section loop on it.  Each step advances `idx` past the end marker, so
`patch.length + 1` steps of fuel suffice. -/
def applyBlocksF (root : List String) :
    Nat → List Char → FS → List String → Nat → FS × Except ToolErr (List String)
  | 0, _, fs, acc, _ => (fs, Except.ok acc)
  | fuel + 1, patch, fs, acc, idx =>
    match findFrom patch beginMarker idx with
    | none => (fs, Except.ok acc)
    | some start =>
      match findFrom patch endMarker start with
      | none =>
        (fs, Except.error
          (ToolErr.valueError "Unclosed patch block (missing '*** End Patch')"))
      | some stop =>
        let block := stripNLs (sliceL patch (start + beginMarker.length) stop)
        match applySectionsF root (block.length + 1) block fs acc 0 with
        | (fs1, Except.error e) => (fs1, Except.error e)
        | (fs1, Except.ok acc1) =>
          applyBlocksF root fuel patch fs1 acc1 (stop + endMarker.length)

/-- Model of `handle_apply_patch` (src lines 329-389).  The filesystem
component records the writes performed before any raised exception. -/
def handle_apply_patch (root : List String) (fs : FS) (patch_text : String) :
    FS × Except ToolErr PatchResult :=
  if patch_text = "" ∨ findFrom patch_text.data beginMarker 0 = none then
    (fs, Except.error (ToolErr.valueError "Patch missing '*** Begin Patch'"))
  else
    match applyBlocksF root (patch_text.data.length + 1) patch_text.data fs [] 0 with
    | (fs1, Except.error e) => (fs1, Except.error e)
    | (fs1, Except.ok updated) => (fs1, Except.ok { success := true, updated := updated })

/-- `pat` occurs in `l` at position `j` (it is a prefix of the text
from `j` on). -/
def OccursAt (l pat : List Char) (j : Nat) : Prop :=
  pat <+: l.drop j

/-- One update section as it appears inside a block body: the header
marker, a space, the path, a newline, then the content characters. -/
def sectionCore (p : String) (d : List Char) : List Char :=
  updateHdr ++ ' ' :: p.data ++ '\n' :: d

/-- Concatenation of update sections. -/
def joinSecs (secs : List (String × List Char)) : List Char :=
  (secs.map (fun pc => sectionCore pc.1 pc.2)).flatten

/-- One `"*** Update File:"` section of a patch text: header line with
the path, then the content, terminated by a newline. -/
def mkSection (pc : String × String) : List Char :=
  sectionCore pc.1 (pc.2.data ++ ['\n'])

/-- A single-block patch text with one update section per
`(path, content)` pair, in order. -/
def mkPatch (l : List (String × String)) : String :=
  String.mk (beginMarker ++ '\n' :: ((l.map mkSection).flatten ++ endMarker))

/-- The sections of `mkPatch l` as the parser sees them after the block
body's trailing newline is stripped: every section keeps its
terminating newline except the last. -/
def blockSecs : List (String × String) → List (String × List Char)
  | [] => []
  | [pc] => [(pc.1, pc.2.data)]
  | pc :: x :: t => (pc.1, pc.2.data ++ ['\n']) :: blockSecs (x :: t)

/-- A path name a section may use in the general `apply_patch`
theorems: a single component with no separators, wildcards, newlines
or whitespace, and not a dot component. -/
def saneName (p : String) : Prop :=
  p ≠ "" ∧ p ≠ "." ∧ p ≠ ".." ∧
    ∀ c ∈ p.data, c ≠ '*' ∧ c ≠ '/' ∧ c.isWhitespace = false

/-- A section content those theorems accept: nonempty, free of `*` (so
it cannot contain a marker), and not ending in a newline (so the
block-level strip removes only the section terminator). -/
def saneContent (c : String) : Prop :=
  c ≠ "" ∧ c.data.getLast? ≠ some '\n' ∧ ∀ ch ∈ c.data, ch ≠ '*'

/-- Compatibility of a filesystem with the target paths of a patch: no
prefix of the sandbox root is a file, and no target path is already a
directory. -/
def okFS (root : List String) (fs : FS) (names : List String) : Prop :=
  (∀ q ∈ prefixesIncl root, lookupFile fs q = none) ∧
  (∀ p ∈ names, (root ++ [p]) ∉ fs.dirs)

/-- JSON values (the payloads moved over the wire).  Numbers are
modelled as integers; object member order is preserved. -/
inductive J where
  | null
  | bool (b : Bool)
  | num (n : Int)
  | str (s : String)
  | arr (xs : List J)
  | obj (kvs : List (String × J))

/-- Python truthiness of a JSON value (`None`, `False`, `0`, `""`,
`[]`, `{}` are falsy). -/
def jFalsy : J → Bool
  | J.null => true
  | J.bool b => ¬ b
  | J.num n => decide (n = 0)
  | J.str s => decide (s = "")
  | J.arr xs => xs.isEmpty
  | J.obj kvs => kvs.isEmpty

/-- `dict.get(k)` on a JSON object's members. -/
def jLookup (kvs : List (String × J)) (k : String) : Option J :=
  (kvs.find? (fun kv => decide (kv.1 = k))).map (fun kv => kv.2)

/-- `DEFAULT_TIMEOUT_SEC` (src line 20). -/
def DEFAULT_TIMEOUT_SEC : Int := 30

/-- `MAX_STDOUT_CHARS` (src line 21). -/
def MAX_STDOUT_CHARS : Nat := 200000

/-- `MAX_STDERR_CHARS` (src line 22). -/
def MAX_STDERR_CHARS : Nat := 200000

/-- Python `x or d` for an optional string (`None` and `""` both fall
back to `d`). -/
def pyOr (x : Option String) (d : String) : String :=
  match x with
  | none => d
  | some s => if s = "" then d else s

/-- Python slice `s[:n]`: the first `n` code points of a `str`. -/
def truncStr (n : Nat) (s : String) : String :=
  String.mk (s.data.take n)

/-- Outcome of one `subprocess.run` invocation: normal completion, or
`TimeoutExpired` carrying whatever output was captured (possibly
`None`).  Execution itself is external, so it enters as a parameter. -/
inductive RunOutcome where
  | completed (returncode : Int) (stdout stderr : String)
  | timedOut (stdout stderr : Option String)
  deriving DecidableEq, Repr

/-- The argument vector, working directory, timeout and environment the
handler passes to `subprocess.run`. -/
structure ShellCall where
  argv : List String
  cwd : List String
  timeoutSec : Int
  env : List (String × String)
  deriving DecidableEq, Repr

/-- `s.upper()` (ASCII in the model). -/
def upperStr (s : String) : String :=
  String.mk (s.data.map Char.toUpper)

/-- Model of `_restricted_env` (src lines 391-398): drop every variable
whose upper-cased name starts with a credential-bearing prefix. -/
def restricted_env (env : List (String × String)) : List (String × String) :=
  env.filter (fun kv =>
    ¬ (["AWS_", "GCP_", "AZURE_", "DOCKER_", "KUBECONFIG", "SSH_"].any
        (fun p => startswith (upperStr kv.1) p)))

/-- Result dict of the `shell` tool. -/
structure ShellResult where
  ok : Bool
  exitCode : Option Int
  timedOut : Bool
  stdout : String
  stderr : String
  deriving DecidableEq, Repr

/-- `int(...)` on a JSON scalar (ints pass through, booleans coerce;
other shapes raise). -/
def jInt : J → Except ToolErr Int
  | J.num n => Except.ok n
  | J.bool b => Except.ok (if b then 1 else 0)
  | _ => Except.error ToolErr.typeError

/-- Build the argument vector from the `command` argument (src lines
289-299): a string is split with `shlex.split` (supplied as a
parameter), a list must contain only strings. -/
def buildArgv (shlexSplit : String → List String) : J → Except ToolErr (List String)
  | J.str s => Except.ok (shlexSplit s)
  | J.arr xs =>
    if xs.all (fun x => match x with | J.str _ => true | _ => false) then
      Except.ok (xs.filterMap (fun x => match x with | J.str s => some s | _ => none))
    else Except.error (ToolErr.valueError "command array must contain only strings")
  | _ => Except.error (ToolErr.valueError "command must be string or array of strings")

/-- The validation stage of `handle_shell` (src lines 280-305):
presence of `command`/`workdir`, sandbox resolution and existence of
the working directory, argument-vector construction, the redundant
`startswith` sandbox re-check, and the timeout.  Returns
`(argv, workdir, timeout)`. -/
def shellPrep (shlexSplit : String → List String) (root : List String) (fs : FS)
    (args : List (String × J)) : Except ToolErr (List String × List String × Int) :=
  if (jLookup args "command").isNone ∨ (jLookup args "workdir").isNone then
    Except.error (ToolErr.valueError "shell requires 'command' and 'workdir'")
  else match (jLookup args "workdir").getD (J.str "") with
  | J.str wstr =>
    (match validate_path root wstr with
     | Except.error e => Except.error e
     | Except.ok workdir =>
       if ¬ (fsExists fs workdir ∧ isDirFS fs workdir) then
         Except.error (ToolErr.valueError ("Invalid workdir: " ++ pathStr workdir))
       else match buildArgv shlexSplit ((jLookup args "command").getD J.null) with
       | Except.error e => Except.error e
       | Except.ok argv =>
         if argv = [] then Except.error (ToolErr.valueError "command cannot be empty")
         else if ¬ startswith (pathStr workdir) (pathStr root) then
           Except.error (ToolErr.permissionError "workdir outside allowed directory")
         else match (match jLookup args "timeout" with
                     | none => Except.ok DEFAULT_TIMEOUT_SEC
                     | some v => jInt v) with
         | Except.error e => Except.error e
         | Except.ok timeout => Except.ok (argv, workdir, timeout))
  | _ => Except.error ToolErr.typeError

/-- The execution stage of `handle_shell` (src lines 306-327): invoke
the subprocess and shape the result, truncating both streams. -/
def shellRun (runner : ShellCall → RunOutcome) (osEnv : List (String × String))
    (argv cwd : List String) (timeout : Int) : ShellResult :=
  match runner { argv := argv, cwd := cwd, timeoutSec := timeout,
                 env := restricted_env osEnv } with
  | RunOutcome.completed rc so se =>
    { ok := decide (rc = 0), exitCode := some rc, timedOut := false,
      stdout := truncStr MAX_STDOUT_CHARS so,
      stderr := truncStr MAX_STDERR_CHARS se }
  | RunOutcome.timedOut so se =>
    { ok := false, exitCode := none, timedOut := true,
      stdout := truncStr MAX_STDOUT_CHARS (pyOr so ""),
      stderr := truncStr MAX_STDERR_CHARS
        (pyOr se ("Timed out after " ++ toString timeout ++ "s")) }

/-- Model of `handle_shell` (src lines 273-327): the validation stage
followed by the execution stage.  `shlexSplit` models `shlex.split`,
`runner` models `subprocess.run`, `osEnv` is the process's own
environment; theorems quantify over all three. -/
def handle_shell (shlexSplit : String → List String) (runner : ShellCall → RunOutcome)
    (osEnv : List (String × String)) (root : List String) (fs : FS)
    (args : List (String × J)) : Except ToolErr ShellResult :=
  match shellPrep shlexSplit root fs args with
  | Except.error e => Except.error e
  | Except.ok (argv, workdir, timeout) =>
    Except.ok (shellRun runner osEnv argv workdir timeout)

/-- JSON string escaping for one character (as in `json.dumps` with
`ensure_ascii=False`; other control characters are left verbatim in
the model). -/
def jEsc (c : Char) : String :=
  if c = '"' then "\\\""
  else if c = '\\' then "\\\\"
  else if c = '\n' then "\\n"
  else if c = '\r' then "\\r"
  else if c = '\t' then "\\t"
  else String.mk [c]

/-- A JSON string literal. -/
def jStr (s : String) : String :=
  "\"" ++ String.join (s.data.map jEsc) ++ "\""

mutual

/-- `json.dumps` on a JSON value.  Member order is preserved; the
`indent=2` whitespace layout of the source is not reproduced. -/
def jDump : J → String
  | J.null => "null"
  | J.bool true => "true"
  | J.bool false => "false"
  | J.num n => toString n
  | J.str s => jStr s
  | J.arr xs => "[" ++ jDumpList xs ++ "]"
  | J.obj kvs => "\x7b" ++ jDumpObj kvs ++ "\x7d"

/-- Comma-joined serialisation of an array's elements. -/
def jDumpList : List J → String
  | [] => ""
  | [x] => jDump x
  | x :: y :: xs => jDump x ++ ", " ++ jDumpList (y :: xs)

/-- Comma-joined serialisation of an object's members. -/
def jDumpObj : List (String × J) → String
  | [] => ""
  | [(k, v)] => jStr k ++ ": " ++ jDump v
  | (k, v) :: m :: kvs => jStr k ++ ": " ++ jDump v ++ ", " ++ jDumpObj (m :: kvs)

end

/-- `PROTOCOL_VERSION` (src line 18). -/
def PROTOCOL_VERSION : String := "2024-11-05"

/-- A JSON-RPC success envelope (`{"jsonrpc": "2.0", "id": ..,
"result": ..}`). -/
def okResp (msg_id : J) (result : J) : J :=
  J.obj [("jsonrpc", J.str "2.0"), ("id", msg_id), ("result", result)]

/-- A JSON-RPC error envelope (`{"jsonrpc": "2.0", "id": ..,
"error": {"code": .., "message": ..}}`). -/
def errResp (msg_id : J) (code : Int) (message : String) : J :=
  J.obj [("jsonrpc", J.str "2.0"), ("id", msg_id),
         ("error", J.obj [("code", J.num code), ("message", J.str message)])]

/-- The static `initialize` result (src lines 130-139). -/
def serverInfoResult : J :=
  J.obj [("protocolVersion", J.str PROTOCOL_VERSION),
         ("capabilities", J.obj [("tools", J.obj [])]),
         ("serverInfo",
          J.obj [("name", J.str "Local Filesystem Server"), ("version", J.str "1.1.0")])]

/-- The static `tools/list` result (src lines 143-234): the seven tool
descriptors with their input schemas. -/
def toolsListResult : J :=
  J.obj [("tools", J.arr
    [J.obj [("name", J.str "shell"),
            ("description", J.str "Execute shell commands within the allowed workspace (Codex-style)"),
            ("inputSchema", J.obj
              [("type", J.str "object"),
               ("properties", J.obj
                 [("command", J.obj
                   [("oneOf", J.arr
                     [J.obj [("type", J.str "string"),
                             ("description", J.str "Command string (will be shlex-split)")],
                      J.obj [("type", J.str "array"),
                             ("items", J.obj [("type", J.str "string")]),
                             ("description", J.str "Command argv")]])]),
                  ("workdir", J.obj
                    [("type", J.str "string"),
                     ("description", J.str "Working directory (relative or absolute within allowed root)")]),
                  ("timeout", J.obj
                    [("type", J.str "integer"),
                     ("description", J.str "Timeout (seconds)")])]),
               ("required", J.arr [J.str "command", J.str "workdir"])])],
     J.obj [("name", J.str "apply_patch"),
            ("description", J.str "Apply a multi-file patch in the common Codex '*** Begin Patch' format"),
            ("inputSchema", J.obj
              [("type", J.str "object"),
               ("properties", J.obj
                 [("patch", J.obj
                   [("type", J.str "string"),
                    ("description", J.str "Patch text (*** Begin Patch / *** Update File: path / *** End Patch)")])]),
               ("required", J.arr [J.str "patch"])])],
     J.obj [("name", J.str "search"),
            ("description", J.str "Search for files and directories"),
            ("inputSchema", J.obj
              [("type", J.str "object"),
               ("properties", J.obj
                 [("query", J.obj
                   [("type", J.str "string"),
                    ("description", J.str "Search query (empty = list root)")])]),
               ("required", J.arr [J.str "query"])])],
     J.obj [("name", J.str "fetch"),
            ("description", J.str "Fetch file or directory contents"),
            ("inputSchema", J.obj
              [("type", J.str "object"),
               ("properties", J.obj
                 [("id", J.obj
                   [("type", J.str "string"),
                    ("description", J.str "File or directory path")])]),
               ("required", J.arr [J.str "id"])])],
     J.obj [("name", J.str "write_file"),
            ("description", J.str "Write a UTF-8 text file (creates parents)"),
            ("inputSchema", J.obj
              [("type", J.str "object"),
               ("properties", J.obj
                 [("path", J.obj [("type", J.str "string")]),
                  ("content", J.obj [("type", J.str "string")])]),
               ("required", J.arr [J.str "path", J.str "content"])])],
     J.obj [("name", J.str "create_directory"),
            ("description", J.str "Create a directory (and parents)"),
            ("inputSchema", J.obj
              [("type", J.str "object"),
               ("properties", J.obj [("path", J.obj [("type", J.str "string")])]),
               ("required", J.arr [J.str "path"])])],
     J.obj [("name", J.str "delete_file"),
            ("description", J.str "Delete a file or directory (recursive for directories)"),
            ("inputSchema", J.obj
              [("type", J.str "object"),
               ("properties", J.obj [("path", J.obj [("type", J.str "string")])]),
               ("required", J.arr [J.str "path"])])]])]

/-- Does `message.get("method")` equal the given method string? -/
def isMethod (m : Option J) (s : String) : Bool :=
  match m with
  | some (J.str t) => decide (t = s)
  | _ => false

/-- Python `str(...)` of an optional JSON value inside an f-string
(`None` for an absent key; containers are placeholders). -/
def pyStr : Option J → String
  | none => "None"
  | some J.null => "None"
  | some (J.bool true) => "True"
  | some (J.bool false) => "False"
  | some (J.num n) => toString n
  | some (J.str s) => s
  | some (J.arr _) => "[...]"
  | some (J.obj _) => "\x7b...\x7d"

/-- Python `str(e)` for the modelled exceptions (OS error strings are
placeholders; `ValueError`/`PermissionError` carry their message). -/
def toolErrMsg : ToolErr → String
  | ToolErr.valueError m => m
  | ToolErr.permissionError m => m
  | ToolErr.isADirectoryError => "Is a directory"
  | ToolErr.fileExistsError => "File exists"
  | ToolErr.typeError => "TypeError"

/-- The tool names the `tools/call` dispatcher recognises (src lines
240-253). -/
def knownTools : List String :=
  ["shell", "apply_patch", "search", "fetch", "write_file", "create_directory",
   "delete_file"]

/-- `message.get("params", {}) or {}` (src line 127). -/
def paramsOf (kvs : List (String × J)) : J :=
  let p := (jLookup kvs "params").getD (J.obj [])
  if jFalsy p then J.obj [] else p

/-- Model of `process_mcp_message` (src lines 125-270).  The seven tool
executors are reached through the `callTool` parameter (modelled
individually elsewhere in this file); the router's own logic — method
and tool-name dispatch, argument extraction, result wrapping as a text
content item, error-code mapping, and `id` echoing — is modelled
directly.  The `Except.error` case is a raised `AttributeError`
(`.get` on a non-dict), which propagates to `handle_mcp_message`. -/
def process_mcp_message (callTool : String → J → FS → FS × Except ToolErr J)
    (fs : FS) (message : J) : FS × Except String J :=
  match message with
  | J.obj kvs =>
    let method := jLookup kvs "method"
    let msg_id := (jLookup kvs "id").getD J.null
    if isMethod method "initialize" then
      (fs, Except.ok (okResp msg_id serverInfoResult))
    else if isMethod method "tools/list" then
      (fs, Except.ok (okResp msg_id toolsListResult))
    else if isMethod method "tools/call" then
      match paramsOf kvs with
      | J.obj pkvs =>
        let tool_name := jLookup pkvs "name"
        let tool_args :=
          let a := (jLookup pkvs "arguments").getD (J.obj [])
          if jFalsy a then J.obj [] else a
        (match tool_name with
         | some (J.str n) =>
           if knownTools.contains n then
             match callTool n tool_args fs with
             | (fs1, Except.ok result) =>
               (fs1, Except.ok (okResp msg_id (J.obj [("content", J.arr
                 [J.obj [("type", J.str "text"), ("text", J.str (jDump result)),
                         ("mimeType", J.str "application/json")]])])))
             | (fs1, Except.error e) =>
               (fs1, Except.ok (errResp msg_id (-32000) (toolErrMsg e)))
           else (fs, Except.ok (errResp msg_id (-32601) ("Unknown tool: " ++ n)))
         | _ =>
           (fs, Except.ok (errResp msg_id (-32601) ("Unknown tool: " ++ pyStr tool_name))))
      | _ => (fs, Except.error "AttributeError")
    else
      (fs, Except.ok (errResp msg_id (-32601) ("Unknown method: " ++ pyStr method)))
  | _ => (fs, Except.error "AttributeError")

/-- Best-effort `message.get("id")` (src line 116): JSON null when the
key is absent or the message is not a dict (where `.get` raises and the
recovery falls back to `None`). -/
def extractId : J → J
  | J.obj kvs => (jLookup kvs "id").getD J.null
  | _ => J.null

/-- The request body as seen after transport decoding: missing/zero
`Content-Length`, a body `json.loads` rejects, or a parsed JSON value. -/
inductive InBody where
  | noContent
  | unparsable
  | parsed (m : J)

/-- Model of `handle_mcp_message` (src lines 99-123): dispatch the body
to `process_mcp_message`; on a raised exception answer `-32603` with
the best-effort `id` (null when the body never parsed).  The `str(e)`
message text is abstracted as `"internal error"`. -/
def handle_mcp_message (callTool : String → J → FS → FS × Except ToolErr J)
    (fs : FS) (body : InBody) : FS × J :=
  match body with
  | InBody.noContent => (fs, errResp J.null (-32600) "No content")
  | InBody.unparsable => (fs, errResp J.null (-32603) "internal error")
  | InBody.parsed m =>
    match process_mcp_message callTool fs m with
    | (fs1, Except.ok resp) => (fs1, resp)
    | (fs1, Except.error _) => (fs1, errResp (extractId m) (-32603) "internal error")

/-- The id a response must carry according to the spec: the request's
`id`, or JSON null when it could not be determined. -/
def requestIdOf : InBody → J
  | InBody.parsed m => extractId m
  | _ => J.null

/-- The parse failures the spec calls `MalformedPatch`: the three
`ValueError`s `handle_apply_patch` itself raises while parsing (plus
the missing-begin pre-check). -/
def isMalformedPatch : ToolErr → Bool
  | ToolErr.valueError m =>
    decide (m = "Patch missing '*** Begin Patch'") ||
    decide (m = "Unclosed patch block (missing '*** End Patch')") ||
    decide (m = "Malformed update header (no newline after file path)") ||
    decide (m = "Malformed update header")
  | _ => false

/-- A patch text whose second `"*** Begin Patch"` (at position 56) has
no matching end marker, and whose first, complete block names an
absolute path outside the sandbox. -/
def patchC4 : String :=
  "*** Begin Patch\n*** Update File: /etc/x\nz\n*** End Patch\n*** Begin Patch"

/-- The pre-truncation output streams of one execution outcome: the
captured stdout/stderr, with the timeout branch's Python `or`
fallbacks applied (src lines 320-321, 325-326). -/
def rawStreams (o : RunOutcome) (timeout : Int) : String × String :=
  match o with
  | RunOutcome.completed _ so se => (so, se)
  | RunOutcome.timedOut so se =>
    (pyOr so "", pyOr se ("Timed out after " ++ toString timeout ++ "s"))

/-- A concrete `shlex.split` stand-in for instantiating theorems. -/
def shlexW : String → List String := fun _ => ["ls"]

/-- A concrete runner that completes immediately. -/
def runnerDoneW : ShellCall → RunOutcome := fun _ => RunOutcome.completed 0 "out" ""

/-- A concrete runner whose command always hits the timeout. -/
def runnerTimeoutW : ShellCall → RunOutcome :=
  fun _ => RunOutcome.timedOut (some "partial out") none

/-- The sandbox root `/sb` used in concrete instantiations. -/
def rootW : List String := ["sb"]

/-- A minimal filesystem: just `/` and the sandbox root. -/
def fsW : FS := ⟨[], [[], ["sb"]]⟩

/-- A filesystem whose sandbox root holds a directory `d` containing a
file and a subdirectory. -/
def fsDirW : FS :=
  ⟨[(["sb", "d", "b.txt"], "x")], [[], ["sb"], ["sb", "d"], ["sb", "d", "sub"]]⟩

/-- `fsW` after `write_file("f.txt", "hi")`. -/
def fsAfterWriteW : FS := ⟨[(["sb", "f.txt"], "hi")], [[], ["sb"], [], ["sb"]]⟩

/-- Claim C1: for every user path containing `..` segments or given as
an absolute path, `validate_path` must either return a path equal to or
descending from the sandbox root or fail with a `SandboxViolation`.
The code violates this: with sandbox root `/sandbox`, the `..`-bearing
path `../sandboxevil` resolves to `/sandboxevil`, which passes the
string-prefix containment check `str(abs_path).startswith(str(root))`
and is returned, although it is neither the root nor one of its
descendants. -/
theorem c1_validate_path_escapes_root :
    validate_path ["sandbox"] "../sandboxevil" = Except.ok ["sandboxevil"] ∧
      ¬ ["sandbox"] <+: ["sandboxevil"] := by decide

/-- Claim C2 fails as stated: on the exact example patch the stored
content of `a.txt` is `"hello"` — the block body passes through
`strip("\n")`, which removes the trailing newline — not `"hello\n"`. -/
theorem c2_counterexample :
    lookupFile (handle_apply_patch ["sandbox"] ⟨[], [["sandbox"]]⟩
        "*** Begin Patch\n*** Update File: a.txt\nhello\n*** End Patch").1
        ["sandbox", "a.txt"] = some "hello" ∧
      ("hello" : String) ≠ "hello\n" := by decide

/-- Claim C2 (amended): `apply_patch` on
`"*** Begin Patch\n*** Update File: a.txt\nhello\n*** End Patch"`
creates `a.txt` under the sandbox root with content `"hello"` (the
trailing newline is stripped together with the block delimiters) and
returns `updatedPaths = ["a.txt"]`. -/
theorem c2_amended :
    (handle_apply_patch ["sandbox"] ⟨[], [["sandbox"]]⟩
        "*** Begin Patch\n*** Update File: a.txt\nhello\n*** End Patch").2 =
      Except.ok { success := true, updated := ["a.txt"] } ∧
    lookupFile (handle_apply_patch ["sandbox"] ⟨[], [["sandbox"]]⟩
        "*** Begin Patch\n*** Update File: a.txt\nhello\n*** End Patch").1
        ["sandbox", "a.txt"] = some "hello" := by decide

theorem jLookup_cons (k : String) (v : J) (kvs : List (String × J)) (k' : String) :
    jLookup ((k, v) :: kvs) k' = if k = k' then some v else jLookup kvs k' := by
  by_cases h : k = k' <;> simp [jLookup, List.find?_cons, h]

/-- Claim C10: omitting `timeout` runs the command with the default
wall-clock timeout of 30 seconds (`DEFAULT_TIMEOUT_SEC`): a `shell`
call without `timeout` behaves exactly like the same call with
`timeout = 30`. -/
theorem c10_default_timeout (shl : String → List String) (runner : ShellCall → RunOutcome)
    (osEnv : List (String × String)) (root : List String) (fs : FS)
    (args : List (String × J)) (h : jLookup args "timeout" = none) :
    handle_shell shl runner osEnv root fs args =
      handle_shell shl runner osEnv root fs (("timeout", J.num 30) :: args) := by
  have hc : jLookup (("timeout", J.num 30) :: args) "command" = jLookup args "command" := by
    simp [jLookup_cons]
  have hw : jLookup (("timeout", J.num 30) :: args) "workdir" = jLookup args "workdir" := by
    simp [jLookup_cons]
  have ht : jLookup (("timeout", J.num 30) :: args) "timeout" = some (J.num 30) := by
    simp [jLookup_cons]
  simp only [handle_shell, shellPrep, hc, hw, ht, h, jInt, DEFAULT_TIMEOUT_SEC]

/-- Closed instance of `c10_default_timeout` at a concrete call. -/
theorem c10_default_timeout_witness :
    handle_shell shlexW runnerDoneW [] rootW fsW
        [("command", J.str "ls"), ("workdir", J.str ".")] =
      handle_shell shlexW runnerDoneW [] rootW fsW
        (("timeout", J.num 30) :: [("command", J.str "ls"), ("workdir", J.str ".")]) :=
  c10_default_timeout shlexW runnerDoneW [] rootW fsW
    [("command", J.str "ls"), ("workdir", J.str ".")] rfl

/-- Claim C5: when the subprocess exceeds its timeout, `shell` does not
raise: whenever the validation stage succeeds, the call returns a
structured result with `timedOut = true` and `exitCode = null`, and the
output captured before termination is retained, truncated to the
budget (an absent or empty captured stderr falls back to the
`"Timed out after ..s"` message). -/
theorem c5_timeout_structured_result (shl : String → List String)
    (runner : ShellCall → RunOutcome) (osEnv : List (String × String))
    (root : List String) (fs : FS) (args : List (String × J))
    (argv wd : List String) (t : Int) (so se : Option String)
    (hprep : shellPrep shl root fs args = Except.ok (argv, wd, t))
    (hrun : ∀ c, runner c = RunOutcome.timedOut so se) :
    handle_shell shl runner osEnv root fs args = Except.ok
      { ok := false, exitCode := none, timedOut := true,
        stdout := truncStr MAX_STDOUT_CHARS (pyOr so ""),
        stderr := truncStr MAX_STDERR_CHARS
          (pyOr se ("Timed out after " ++ toString t ++ "s")) } := by
  simp [handle_shell, hprep, shellRun, hrun]

/-- Closed instance of `c5_timeout_structured_result`. -/
theorem c5_timeout_witness :
    handle_shell shlexW runnerTimeoutW [] rootW fsW
        [("command", J.str "sleep 5"), ("workdir", J.str "."), ("timeout", J.num 1)] =
      Except.ok
        { ok := false, exitCode := none, timedOut := true,
          stdout := truncStr MAX_STDOUT_CHARS (pyOr (some "partial out") ""),
          stderr := truncStr MAX_STDERR_CHARS
            (pyOr none ("Timed out after " ++ toString (1 : Int) ++ "s")) } :=
  c5_timeout_structured_result shlexW runnerTimeoutW [] rootW fsW
    [("command", J.str "sleep 5"), ("workdir", J.str "."), ("timeout", J.num 1)]
    ["ls"] ["sb"] 1 (some "partial out") none (by decide) (fun _ => rfl)

theorem truncStr_data_take (n : Nat) (s : String) : (truncStr n s).data = s.data.take n := rfl

theorem truncStr_length_le (n : Nat) (s : String) : (truncStr n s).data.length ≤ n := by
  simp [truncStr, List.length_take]

/-- Claim C6: every `shell` result's stdout and stderr are each at most
the 200000-character budget, and each equals the budget-length prefix
(`take`) of the corresponding pre-truncation stream of an actual
subprocess invocation — trailing characters are dropped, never leading
ones. -/
theorem c6_truncation_budget (shl : String → List String)
    (runner : ShellCall → RunOutcome) (osEnv : List (String × String))
    (root : List String) (fs : FS) (args : List (String × J)) (r : ShellResult)
    (h : handle_shell shl runner osEnv root fs args = Except.ok r) :
    r.stdout.data.length ≤ MAX_STDOUT_CHARS ∧ r.stderr.data.length ≤ MAX_STDERR_CHARS ∧
      ∃ c : ShellCall,
        r.stdout.data = (rawStreams (runner c) c.timeoutSec).1.data.take MAX_STDOUT_CHARS ∧
        r.stderr.data = (rawStreams (runner c) c.timeoutSec).2.data.take MAX_STDERR_CHARS := by
  unfold handle_shell at h
  cases hp : shellPrep shl root fs args with
  | error e => rw [hp] at h; cases h
  | ok v =>
    rw [hp] at h
    obtain ⟨argv, wd, t⟩ := v
    have hr : r = shellRun runner osEnv argv wd t := by
      cases h; rfl
    subst hr
    cases ho : runner ⟨argv, wd, t, restricted_env osEnv⟩ with
    | completed rc so se =>
      refine ⟨?_, ?_, ⟨⟨argv, wd, t, restricted_env osEnv⟩, ?_, ?_⟩⟩ <;>
        simp [shellRun, ho, rawStreams, truncStr_length_le, truncStr_data_take]
    | timedOut so se =>
      refine ⟨?_, ?_, ⟨⟨argv, wd, t, restricted_env osEnv⟩, ?_, ?_⟩⟩ <;>
        simp [shellRun, ho, rawStreams, truncStr_length_le, truncStr_data_take]

/-- Closed instance of `c6_truncation_budget`. -/
theorem c6_truncation_witness :
    ({ ok := true, exitCode := some 0, timedOut := false, stdout := "out",
        stderr := "" } : ShellResult).stdout.data.length ≤ MAX_STDOUT_CHARS ∧
      ({ ok := true, exitCode := some 0, timedOut := false, stdout := "out",
          stderr := "" } : ShellResult).stderr.data.length ≤ MAX_STDERR_CHARS ∧
      ∃ c : ShellCall,
        ({ ok := true, exitCode := some 0, timedOut := false, stdout := "out",
            stderr := "" } : ShellResult).stdout.data =
          (rawStreams (runnerDoneW c) c.timeoutSec).1.data.take MAX_STDOUT_CHARS ∧
        ({ ok := true, exitCode := some 0, timedOut := false, stdout := "out",
            stderr := "" } : ShellResult).stderr.data =
          (rawStreams (runnerDoneW c) c.timeoutSec).2.data.take MAX_STDERR_CHARS :=
  c6_truncation_budget shlexW runnerDoneW [] rootW fsW
    [("command", J.str "ls"), ("workdir", J.str ".")] _ (by decide)

/-- Claim C9: `fetch` on a path that resolves to an existing directory
does not fail: it returns the sorted listing of the directory's
immediate children with metadata type `"directory"`; the 1 MiB size
ceiling, checked only on the file branch, is never consulted. -/
theorem c9_fetch_directory (root : List String) (fs : FS) (file_id : String)
    (path : List String) (hid : file_id ≠ "")
    (hval : validate_path root file_id = Except.ok path)
    (hdir : isDirFS fs path = true) :
    handle_fetch root fs file_id = Except.ok
      { id := file_id, title := path.getLast?.getD "",
        text := "Directory: " ++ file_id ++ "\n\nContents:\n" ++
          String.intercalate "\n" (dirListing fs path),
        url := "file://" ++ pathStr path, metadata := FetchMeta.directory } := by
  simp [handle_fetch, hid, hval, fsExists, hdir]

/-- Closed instance of `c9_fetch_directory`: fetching directory `d`
lists its subdirectory first, then its file. -/
theorem c9_fetch_directory_witness :
    handle_fetch rootW fsDirW "d" = Except.ok
      { id := "d", title := "d",
        text := "Directory: d\n\nContents:\n[DIR] sub\nb.txt",
        url := "file:///sb/d", metadata := FetchMeta.directory } :=
  (c9_fetch_directory rootW fsDirW "d" ["sb", "d"] (by decide) (by decide)
    (by decide)).trans (by decide)

theorem univNL_cons_ne (c : Char) (t : List Char) (hc : c ≠ '\r') :
    univNL (c :: t) = c :: univNL t := by
  rw [univNL.eq_def]
  split <;> simp_all

theorem univNL_eq_self (l : List Char) (h : ∀ c ∈ l, c ≠ '\r') : univNL l = l := by
  induction l with
  | nil => rfl
  | cons c t ih =>
    rw [univNL_cons_ne c t (h c (by simp))]
    rw [ih (fun c hc => h c (by simp [hc]))]

theorem strMk_data (s : String) : String.mk s.data = s := rfl

/-- Claim C3 (amended): for every path and every UTF-8 text content
that contains no carriage returns and is at most 1 MiB of UTF-8, a
successful `write_file(path, content)` followed by `fetch` on the same
path returns exactly that content. -/
theorem c3_roundtrip_amended (root : List String) (fs : FS) (dest content : String)
    (fs1 : FS) (w : WriteResult)
    (hw : handle_write_file root fs dest content = Except.ok (fs1, w))
    (hcr : ∀ c ∈ content.data, c ≠ '\r')
    (hsz : content.utf8ByteSize ≤ 1024 * 1024) :
    ∃ r : FetchResult, handle_fetch root fs1 dest = Except.ok r ∧ r.text = content := by
  unfold handle_write_file at hw
  by_cases hid : dest = ""
  · rw [if_pos hid] at hw; cases hw
  rw [if_neg hid] at hw
  cases hv : validate_path root dest with
  | error e => rw [hv] at hw; cases hw
  | ok path =>
  rw [hv] at hw
  dsimp only at hw
  cases hm : mkdirP fs path.dropLast with
  | error e => rw [hm] at hw; cases hw
  | ok fsA =>
  rw [hm] at hw
  dsimp only at hw
  unfold write_text at hw
  by_cases hdp : isDirFS fsA path = true
  · rw [if_pos hdp] at hw; cases hw
  rw [if_neg hdp] at hw
  by_cases hpar : isDirFS fsA path.dropLast = true
  case neg => rw [if_pos (by simp [hpar])] at hw; cases hw
  rw [if_neg (by simp [hpar])] at hw
  have hpair := Except.ok.inj hw
  rw [Prod.mk.injEq] at hpair
  obtain ⟨hfs1, hwres⟩ := hpair
  have hlook : lookupFile fs1 path = some content := by
    rw [← hfs1]; simp [lookupFile, List.find?_cons]
  have hdir1 : isDirFS fs1 path = false := by
    rw [← hfs1]
    have : isDirFS fsA path = false := by
      cases hb : isDirFS fsA path
      · rfl
      · exact absurd hb hdp
    simpa [isDirFS] using this
  refine ⟨⟨dest, path.getLast?.getD "", content, "file://" ++ pathStr path,
    FetchMeta.file content.utf8ByteSize⟩, ?_, rfl⟩
  simp [handle_fetch, hid, hv, fsExists, hlook, hdir1, Nat.not_lt.mpr hsz,
    univNL_eq_self content.data hcr, strMk_data]

/-- Closed instance of `c3_roundtrip_amended` at `f.txt`/`"hi"`. -/
theorem c3_roundtrip_witness :
    ∃ r : FetchResult, handle_fetch rootW fsAfterWriteW "f.txt" = Except.ok r ∧
      r.text = "hi" :=
  c3_roundtrip_amended rootW fsW "f.txt" "hi" fsAfterWriteW
    ⟨true, "Wrote 2 bytes to f.txt", "f.txt"⟩ (by decide) (by decide) (by decide)

/-- Claim C3 fails as stated (for arbitrary UTF-8 content): writing
`"a\rb"` and fetching it back returns `"a\nb"` — `read_text`'s
universal-newline translation folds the carriage return — so the
round-trip is not the identity on all UTF-8 text. -/
theorem c3_counterexample :
    (match handle_write_file ["sandbox"] ⟨[], [["sandbox"]]⟩ "f.txt" "a\rb" with
     | Except.ok (fs1, _) =>
       (handle_fetch ["sandbox"] fs1 "f.txt").map (fun r => r.text)
     | Except.error e => Except.error e) = Except.ok "a\nb" ∧
      ("a\nb" : String) ≠ "a\rb" := by decide

theorem process_mcp_id (callTool : String → J → FS → FS × Except ToolErr J)
    (fs : FS) (m : J) (fs1 : FS) (resp : J)
    (h : process_mcp_message callTool fs m = (fs1, Except.ok resp)) :
    extractId resp = extractId m := by
  unfold process_mcp_message at h
  cases m <;> dsimp only at h <;> repeat' split at h
  all_goals first
    | (injection h with h1 h2; injection h2 with h3; subst h3; rfl)
    | (injection h with h1 h2; cases h2)

/-- Claim C7: for every inbound JSON-RPC request the response's `id`
equals the request's `id`, and when the id cannot be determined
(missing content, unparsable body, non-dict message) the response
carries id null.  Holds for every tool implementation `callTool` and
filesystem state. -/
theorem c7_response_id_echo (callTool : String → J → FS → FS × Except ToolErr J)
    (fs : FS) (body : InBody) :
    extractId (handle_mcp_message callTool fs body).2 = requestIdOf body := by
  cases body with
  | noContent => rfl
  | unparsable => rfl
  | parsed m =>
    show extractId (handle_mcp_message callTool fs (InBody.parsed m)).2 = extractId m
    unfold handle_mcp_message
    dsimp only
    cases hp : process_mcp_message callTool fs m with
    | mk fs1 res =>
      cases res with
      | ok resp =>
        dsimp only
        exact process_mcp_id callTool fs m fs1 resp hp
      | error e => dsimp only; rfl

theorem isPrefixOf_eq_true {α : Type} [BEq α] [LawfulBEq α] {l1 l2 : List α} :
    l1.isPrefixOf l2 = true ↔ l1 <+: l2 :=
  List.isPrefixOf_iff_prefix

theorem pref_or_pref {l1 l2 l3 : List Char} (h1 : l1 <+: l3) (h2 : l2 <+: l3) :
    l1 <+: l2 ∨ l2 <+: l1 :=
  List.prefix_or_prefix_of_prefix h1 h2

theorem findIdxAux_shift (pat l : List Char) (i : Nat) :
    findIdxAux pat l i = (findIdxAux pat l 0).map (fun j => j + i) := by
  induction l generalizing i with
  | nil => by_cases hp : pat = [] <;> simp [findIdxAux, hp]
  | cons c t ih =>
    by_cases hp : pat.isPrefixOf (c :: t)
    · simp [findIdxAux, hp]
    · rw [show findIdxAux pat (c :: t) i = findIdxAux pat t (i + 1) from by
        simp [findIdxAux, hp]]
      rw [show findIdxAux pat (c :: t) 0 = findIdxAux pat t 1 from by
        simp [findIdxAux, hp]]
      rw [ih (i + 1), ih 1]
      cases findIdxAux pat t 0 <;> simp
      omega

theorem findIdxAux_zero_some (pat l : List Char) (j : Nat)
    (h : findIdxAux pat l 0 = some j) :
    pat <+: l.drop j ∧ ∀ k, k < j → ¬ pat <+: l.drop k := by
  induction l generalizing j with
  | nil =>
    by_cases hp : pat = [] <;> simp [findIdxAux, hp] at h
    subst h
    simp [hp]
  | cons c t ih =>
    by_cases hp : pat.isPrefixOf (c :: t)
    · rw [show findIdxAux pat (c :: t) 0 = some 0 from by simp [findIdxAux, hp]] at h
      cases h
      exact ⟨isPrefixOf_eq_true.mp hp, fun k hk => absurd hk (Nat.not_lt_zero k)⟩
    · rw [show findIdxAux pat (c :: t) 0 = findIdxAux pat t 1 from by
        simp [findIdxAux, hp]] at h
      rw [findIdxAux_shift] at h
      cases hbase : findIdxAux pat t 0 with
      | none => rw [hbase] at h; cases h
      | some j0 =>
        rw [hbase] at h
        simp at h
        obtain ⟨hocc, hmin⟩ := ih j0 hbase
        subst h
        constructor
        · simpa using hocc
        · intro k hk
          cases k with
          | zero =>
            simpa [isPrefixOf_eq_true] using hp
          | succ k' =>
            have : k' < j0 := by omega
            simpa using hmin k' this

theorem findIdxAux_zero_none (pat l : List Char)
    (h : findIdxAux pat l 0 = none) : ∀ k, ¬ pat <+: l.drop k := by
  induction l with
  | nil =>
    have hp : pat ≠ [] := by
      intro he
      simp [findIdxAux, he] at h
    intro k hpre
    rw [List.drop_nil] at hpre
    exact hp (List.prefix_nil.mp hpre)
  | cons c t ih =>
    by_cases hp : pat.isPrefixOf (c :: t)
    · rw [show findIdxAux pat (c :: t) 0 = some 0 from by simp [findIdxAux, hp]] at h
      cases h
    · rw [show findIdxAux pat (c :: t) 0 = findIdxAux pat t 1 from by
        simp [findIdxAux, hp]] at h
      rw [findIdxAux_shift] at h
      cases hbase : findIdxAux pat t 0 with
      | none =>
        intro k
        cases k with
        | zero => simpa [isPrefixOf_eq_true] using hp
        | succ k' => simpa using ih hbase k'
      | some j0 => rw [hbase] at h; cases h

theorem findFrom_some (l pat : List Char) (s j : Nat) (h : findFrom l pat s = some j) :
    s ≤ j ∧ OccursAt l pat j ∧ ∀ k, s ≤ k → k < j → ¬ OccursAt l pat k := by
  unfold findFrom at h
  cases hbase : findIdxAux pat (l.drop s) 0 with
  | none => rw [hbase] at h; cases h
  | some j0 =>
    rw [hbase] at h
    simp at h
    obtain ⟨hocc, hmin⟩ := findIdxAux_zero_some pat (l.drop s) j0 hbase
    subst h
    refine ⟨by omega, ?_, ?_⟩
    · unfold OccursAt
      rw [List.drop_drop] at hocc
      rwa [Nat.add_comm s j0] at hocc
    · intro k hks hkj
      unfold OccursAt
      have hmk := hmin (k - s) (by omega)
      rw [List.drop_drop] at hmk
      have hks' : s + (k - s) = k := by omega
      rwa [hks'] at hmk

theorem findFrom_none (l pat : List Char) (s : Nat) (h : findFrom l pat s = none) :
    ∀ k, s ≤ k → ¬ OccursAt l pat k := by
  unfold findFrom at h
  cases hbase : findIdxAux pat (l.drop s) 0 with
  | some j0 => rw [hbase] at h; cases h
  | none =>
    intro k hks
    unfold OccursAt
    have hmk := findIdxAux_zero_none pat (l.drop s) hbase (k - s)
    rw [List.drop_drop] at hmk
    have hks' : s + (k - s) = k := by omega
    rwa [hks'] at hmk

theorem findFrom_eq_some_of (l pat : List Char) (s j : Nat) (hs : s ≤ j)
    (hocc : OccursAt l pat j) (hmin : ∀ k, s ≤ k → k < j → ¬ OccursAt l pat k) :
    findFrom l pat s = some j := by
  cases hF : findFrom l pat s with
  | none => exact absurd hocc (findFrom_none l pat s hF j hs)
  | some j' =>
    obtain ⟨h1, h2, h3⟩ := findFrom_some l pat s j' hF
    have hn1 : ¬ j' < j := fun hlt => hmin j' h1 hlt h2
    have hn2 : ¬ j < j' := fun hlt => h3 j hs hlt hocc
    have : j = j' := by omega
    rw [this]

theorem findFrom_some_of_occurs (l pat : List Char) (s k : Nat) (hs : s ≤ k)
    (h : OccursAt l pat k) : ∃ j, findFrom l pat s = some j ∧ j ≤ k := by
  cases hF : findFrom l pat s with
  | none => exact absurd h (findFrom_none l pat s hF k hs)
  | some j =>
    obtain ⟨h1, h2, h3⟩ := findFrom_some l pat s j hF
    refine ⟨j, rfl, ?_⟩
    by_contra hkj
    exact h3 k hs (by omega) h

theorem occurs_len (l pat : List Char) (j : Nat) (hpat : pat ≠ [])
    (h : OccursAt l pat j) : j + pat.length ≤ l.length := by
  have hle := h.length_le
  rw [List.length_drop] at hle
  have hpos : 0 < pat.length := List.length_pos.mpr hpat
  omega

theorem pref_append {α : Type} (x y : List α) : x <+: x ++ y := ⟨y, rfl⟩

theorem pref_take (l : List Char) (n : Nat) : l.take n <+: l :=
  ⟨l.drop n, List.take_append_drop n l⟩

theorem occursAt_getElem (l pat : List Char) (j m : Nat) (h : OccursAt l pat j)
    (hm : m < pat.length) : l[j + m]? = pat[m]? := by
  obtain ⟨r, hr⟩ := h
  have h1 : (l.drop j)[m]? = l[j + m]? := List.getElem?_drop l j m
  rw [← hr] at h1
  rw [← h1, List.getElem?_append_left hm]

theorem occursAt_head (l pat : List Char) (j : Nat) (c : Char) (h : OccursAt l pat j)
    (hp : pat[0]? = some c) : l[j]? = some c := by
  have hlen : 0 < pat.length := by
    cases pat with
    | nil => simp at hp
    | cons a t => simp
  have := occursAt_getElem l pat j 0 h hlen
  simpa [hp] using this

theorem occursAt_of_take (l pat : List Char) (b j : Nat) (h : OccursAt (l.take b) pat j) :
    OccursAt l pat j := by
  unfold OccursAt at *
  rw [List.drop_take] at h
  exact h.trans (pref_take _ _)

theorem take_of_occursAt (l pat : List Char) (b j : Nat) (h : OccursAt l pat j)
    (hb : j + pat.length ≤ b) : OccursAt (l.take b) pat j := by
  unfold OccursAt at *
  rw [List.drop_take]
  obtain ⟨r, hr⟩ := h
  rw [← hr, List.take_append_eq_append_take]
  have h1 : pat.take (b - j) = pat := List.take_of_length_le (by omega)
  rw [h1]
  exact pref_append _ _

theorem occursAt_append_right (x r pat : List Char) (q : Nat) (h : OccursAt r pat q) :
    OccursAt (x ++ r) pat (x.length + q) := by
  unfold OccursAt at *
  rw [← List.drop_drop, List.drop_left]
  exact h

theorem occurs_occurs_drop (l u v : List Char) (i j : Nat)
    (hu : OccursAt l u i) (hv : OccursAt l v j) (hij : i ≤ j) (hjd : j - i ≤ u.length) :
    u.drop (j - i) <+: v ∨ v <+: u.drop (j - i) := by
  obtain ⟨r, hr⟩ := hu
  have hdj : l.drop j = u.drop (j - i) ++ r := by
    have h1 : l.drop j = (l.drop i).drop (j - i) := by
      rw [List.drop_drop]
      congr 1
      omega
    rw [h1, ← hr, List.drop_append_of_le_length hjd]
  have hu' : u.drop (j - i) <+: l.drop j := by
    rw [hdj]
    exact pref_append _ _
  exact pref_or_pref hu' hv

theorem end_begin_sep (l : List Char) (s b : Nat)
    (he : OccursAt l endMarker s) (hb : OccursAt l beginMarker b) (hsb : s ≤ b) :
    s + 13 ≤ b := by
  by_contra hcon
  have h13 : endMarker.length = 13 := rfl
  have hd : b - s ≤ endMarker.length := by omega
  rcases occurs_occurs_drop l endMarker beginMarker s b he hb hsb hd with h | h
  · exact (show ∀ d, d < 13 → ¬ (endMarker.drop d <+: beginMarker) from by decide)
      (b - s) (by omega) h
  · have hle := h.length_le
    have h15 : beginMarker.length = 15 := rfl
    rw [List.length_drop] at hle
    omega

theorem begin_begin_sep (l : List Char) (i b : Nat)
    (h1 : OccursAt l beginMarker i) (h2 : OccursAt l beginMarker b) (hib : i < b) :
    i + 15 ≤ b := by
  by_contra hcon
  have h15 : beginMarker.length = 15 := rfl
  have hd : b - i ≤ beginMarker.length := by omega
  rcases occurs_occurs_drop l beginMarker beginMarker i b h1 h2 (by omega) hd with h | h
  · exact (show ∀ d, d < 15 → 0 < d → ¬ (beginMarker.drop d <+: beginMarker) from by decide)
      (b - i) (by omega) (by omega) h
  · have hle := h.length_le
    rw [List.length_drop] at hle
    omega

theorem hdr_near_hdr (l : List Char) (q j : Nat) (hq : OccursAt l updateHdr q)
    (hj : OccursAt l updateHdr j) (hqj : q ≤ j) (hlt : j < q + 3) : j = q := by
  by_contra hne
  have h16 : updateHdr.length = 16 := rfl
  have hd : j - q ≤ updateHdr.length := by omega
  rcases occurs_occurs_drop l updateHdr updateHdr q j hq hj hqj hd with h | h
  · exact (show ∀ d, d < 3 → 0 < d → ¬ (updateHdr.drop d <+: updateHdr) from by decide)
      (j - q) (by omega) (by omega) h
  · have hle := h.length_le
    rw [List.length_drop] at hle
    omega

theorem end_not_near_hdr (l : List Char) (q j : Nat) (hq : OccursAt l updateHdr q)
    (hj : OccursAt l endMarker j) (hqj : q ≤ j) (hlt : j < q + 3) : False := by
  have h16 : updateHdr.length = 16 := rfl
  have hd : j - q ≤ updateHdr.length := by omega
  rcases occurs_occurs_drop l updateHdr endMarker q j hq hj hqj hd with h | h
  · exact (show ∀ d, d < 3 → ¬ (updateHdr.drop d <+: endMarker) from by decide)
      (j - q) (by omega) h
  · exact (show ∀ d, d < 3 → ¬ (endMarker <+: updateHdr.drop d) from by decide)
      (j - q) (by omega) h

theorem end_not_near_begin (l : List Char) (q j : Nat) (hq : OccursAt l beginMarker q)
    (hj : OccursAt l endMarker j) (hqj : q ≤ j) (hlt : j < q + 3) : False := by
  have h15 : beginMarker.length = 15 := rfl
  have hd : j - q ≤ beginMarker.length := by omega
  rcases occurs_occurs_drop l beginMarker endMarker q j hq hj hqj hd with h | h
  · exact (show ∀ d, d < 3 → ¬ (beginMarker.drop d <+: endMarker) from by decide)
      (j - q) (by omega) h
  · exact (show ∀ d, d < 3 → ¬ (endMarker <+: beginMarker.drop d) from by decide)
      (j - q) (by omega) h

theorem findFrom_none_of_short (l pat : List Char) (idx : Nat) (hpat : pat ≠ [])
    (h : l.length < idx) : findFrom l pat idx = none := by
  cases hF : findFrom l pat idx with
  | none => rfl
  | some j =>
    obtain ⟨h1, h2, _⟩ := findFrom_some l pat idx j hF
    have := occurs_len l pat j hpat h2
    have hpos : 0 < pat.length := List.length_pos.mpr hpat
    omega

theorem applyBlocksF_done (root : List String) (fuel : Nat) (patch : List Char)
    (fs : FS) (acc : List String) (idx : Nat) (h : patch.length < idx) :
    applyBlocksF root fuel patch fs acc idx = (fs, Except.ok acc) := by
  cases fuel with
  | zero => rfl
  | succ f =>
    simp [applyBlocksF, findFrom_none_of_short patch beginMarker idx (by decide) h]

theorem applyBlocksF_fuel_stable (root : List String) (patch : List Char) :
    ∀ f1 f2 fs acc idx, patch.length < idx + 13 * f1 → patch.length < idx + 13 * f2 →
      applyBlocksF root f1 patch fs acc idx = applyBlocksF root f2 patch fs acc idx := by
  intro f1
  induction f1 with
  | zero =>
    intro f2 fs acc idx h1 h2
    rw [applyBlocksF_done root 0 patch fs acc idx (by omega),
        applyBlocksF_done root f2 patch fs acc idx (by omega)]
  | succ f ih =>
    intro f2 fs acc idx h1 h2
    cases f2 with
    | zero =>
      rw [applyBlocksF_done root (f + 1) patch fs acc idx (by omega),
          applyBlocksF_done root 0 patch fs acc idx (by omega)]
    | succ g =>
      simp only [applyBlocksF]
      cases hB : findFrom patch beginMarker idx with
      | none => rfl
      | some start =>
        dsimp only
        cases hE : findFrom patch endMarker start with
        | none => rfl
        | some stop =>
          dsimp only
          obtain ⟨hs1, hocc1, _⟩ := findFrom_some patch beginMarker idx start hB
          obtain ⟨hs2, hocc2, _⟩ := findFrom_some patch endMarker start stop hE
          have h13 : endMarker.length = 13 := rfl
          cases hS : applySectionsF root
              ((stripNLs (sliceL patch (start + beginMarker.length) stop)).length + 1)
              (stripNLs (sliceL patch (start + beginMarker.length) stop)) fs acc 0 with
          | mk fs1 r =>
            cases r with
            | error e => rfl
            | ok acc1 =>
              exact ih g fs1 acc1 (stop + endMarker.length) (by omega) (by omega)

theorem applyBlocksF_unclosed (root : List String) (patch : List Char) (b : Nat)
    (hb : OccursAt patch beginMarker b)
    (hnoend : ∀ e, b ≤ e → ¬ OccursAt patch endMarker e) :
    ∀ fuel idx fs acc, idx ≤ b → patch.length < idx + 13 * fuel →
      (∃ msg, (applyBlocksF root fuel patch fs acc idx).2 = Except.error msg) ∧
      (applyBlocksF root fuel patch fs acc idx).1 =
        (applyBlocksF root fuel (patch.take b) fs acc idx).1 := by
  intro fuel
  induction fuel with
  | zero =>
    intro idx fs acc hidx hfuel
    exfalso
    have := occurs_len patch beginMarker b (by decide) hb
    have h15 : beginMarker.length = 15 := rfl
    omega
  | succ f ih =>
    intro idx fs acc hidx hfuel
    obtain ⟨start, hfind, hstart_le⟩ := findFrom_some_of_occurs patch beginMarker idx b hidx hb
    obtain ⟨hidx_start, hstart_occ, hstart_min⟩ := findFrom_some patch beginMarker idx start hfind
    cases hEnd : findFrom patch endMarker start with
    | none =>
      constructor
      · exact ⟨ToolErr.valueError "Unclosed patch block (missing '*** End Patch')",
          by simp [applyBlocksF, hfind, hEnd]⟩
      · have hL : (applyBlocksF root (f + 1) patch fs acc idx).1 = fs := by
          simp [applyBlocksF, hfind, hEnd]
        rw [hL]
        cases hBT : findFrom (patch.take b) beginMarker idx with
        | none => simp [applyBlocksF, hBT]
        | some s' =>
          obtain ⟨h1', h2', h3'⟩ := findFrom_some _ _ _ _ hBT
          have hsge : start ≤ s' := by
            by_contra hlt
            exact hstart_min s' h1' (by omega) (occursAt_of_take _ _ _ _ h2')
          cases hET : findFrom (patch.take b) endMarker s' with
          | none => simp [applyBlocksF, hBT, hET]
          | some e' =>
            exfalso
            obtain ⟨he1, he2, _⟩ := findFrom_some _ _ _ _ hET
            exact findFrom_none patch endMarker start hEnd e' (by omega)
              (occursAt_of_take _ _ _ _ he2)
    | some stop =>
      obtain ⟨hstop_ge, hstop_occ, hstop_min⟩ := findFrom_some patch endMarker start stop hEnd
      have hstop_lt : stop < b := by
        by_contra hge
        exact hnoend stop (by omega) hstop_occ
      have hsep : stop + 13 ≤ b := end_begin_sep patch stop b hstop_occ hb (by omega)
      have hstart_lt : start < b := by omega
      have hstart_sep : start + 15 ≤ b := begin_begin_sep patch start b hstart_occ hb hstart_lt
      have h15 : beginMarker.length = 15 := rfl
      have h13 : endMarker.length = 13 := rfl
      have hBT : findFrom (patch.take b) beginMarker idx = some start := by
        apply findFrom_eq_some_of _ _ _ _ hidx_start
        · exact take_of_occursAt _ _ _ _ hstart_occ (by omega)
        · intro k hk1 hk2 hocc
          exact hstart_min k hk1 hk2 (occursAt_of_take _ _ _ _ hocc)
      have hET : findFrom (patch.take b) endMarker start = some stop := by
        apply findFrom_eq_some_of _ _ _ _ hstop_ge
        · exact take_of_occursAt _ _ _ _ hstop_occ (by omega)
        · intro k hk1 hk2 hocc
          exact hstop_min k hk1 hk2 (occursAt_of_take _ _ _ _ hocc)
      have hblock : sliceL (patch.take b) (start + beginMarker.length) stop =
          sliceL patch (start + beginMarker.length) stop := by
        unfold sliceL
        rw [List.take_take, Nat.min_eq_left (by omega)]
      simp only [applyBlocksF, hfind, hEnd, hBT, hET, hblock]
      cases hS : applySectionsF root
          ((stripNLs (sliceL patch (start + beginMarker.length) stop)).length + 1)
          (stripNLs (sliceL patch (start + beginMarker.length) stop)) fs acc 0 with
      | mk fs1 r =>
        cases r with
        | error e => exact ⟨⟨e, rfl⟩, rfl⟩
        | ok acc1 =>
          exact ih (stop + endMarker.length) fs1 acc1 (by omega) (by omega)

/-- Claim C4 fails as stated: `patchC4` contains a begin marker (at
position 56) with no end marker after it, yet `apply_patch` fails with
a `SandboxViolation` (`PermissionError`) raised by the earlier complete
block's escaping path — not with a `MalformedPatch`. -/
theorem c4_counterexample :
    findFrom patchC4.data beginMarker 56 = some 56 ∧
    findFrom patchC4.data endMarker 56 = none ∧
    (handle_apply_patch ["sandbox"] ⟨[], [["sandbox"]]⟩ patchC4).2 =
      Except.error (ToolErr.permissionError "Path outside allowed directory") ∧
    isMalformedPatch (ToolErr.permissionError "Path outside allowed directory") = false := by
  decide

/-- Claim C4 (amended): for every patch text containing a
`"*** Begin Patch"` marker with no `"*** End Patch"` marker at or after
it, `apply_patch` fails — with the MalformedPatch "Unclosed patch
block" error unless a section of an earlier complete block raises its
own error first — and writes no file from the unclosed block: the
filesystem it leaves behind is exactly the one left by the patch text
truncated at that begin marker. -/
theorem c4_unclosed_block_amended (root : List String) (fs : FS) (patch_text : String)
    (b : Nat) (hb : OccursAt patch_text.data beginMarker b)
    (hnoend : ∀ e, b ≤ e → ¬ OccursAt patch_text.data endMarker e) :
    (∃ msg, (handle_apply_patch root fs patch_text).2 = Except.error msg) ∧
    (handle_apply_patch root fs patch_text).1 =
      (handle_apply_patch root fs (String.mk (patch_text.data.take b))).1 := by
  have h15 : beginMarker.length = 15 := rfl
  have hlen := occurs_len patch_text.data beginMarker b (by decide) hb
  rw [h15] at hlen
  have hne : patch_text ≠ "" := by
    intro he
    rw [he] at hlen
    have hd : ("" : String).data = [] := rfl
    rw [hd] at hlen
    simp at hlen
  obtain ⟨s0, hf0, hs0b⟩ :=
    findFrom_some_of_occurs patch_text.data beginMarker 0 b (Nat.zero_le b) hb
  have hmain := applyBlocksF_unclosed root patch_text.data b hb hnoend
    (patch_text.data.length + 1) 0 fs [] (Nat.zero_le b) (by omega)
  obtain ⟨⟨msg, hmsg⟩, hfs⟩ := hmain
  unfold handle_apply_patch
  rw [if_neg (by simp [hne, hf0])]
  cases hB : applyBlocksF root (patch_text.data.length + 1) patch_text.data fs [] 0 with
  | mk fs1 r =>
    rw [hB] at hmsg hfs
    simp only at hmsg hfs
    subst hmsg
    refine ⟨⟨msg, rfl⟩, ?_⟩
    have htklen : (patch_text.data.take b).length ≤ patch_text.data.length := by
      rw [List.length_take]
      omega
    have hstab := applyBlocksF_fuel_stable root (patch_text.data.take b)
      (patch_text.data.length + 1) ((patch_text.data.take b).length + 1) fs [] 0
      (by omega) (by omega)
    rw [hstab] at hfs
    by_cases hpre : (String.mk (patch_text.data.take b) = "" ∨
        findFrom (String.mk (patch_text.data.take b)).data beginMarker 0 = none)
    · rw [if_pos hpre]
      have hTnone : findFrom (patch_text.data.take b) beginMarker 0 = none := by
        rcases hpre with hemp | hnone
        · have : patch_text.data.take b = [] := congrArg String.data hemp
          rw [this]
          decide
        · exact hnone
      have hTdone : applyBlocksF root ((patch_text.data.take b).length + 1)
          (patch_text.data.take b) fs [] 0 = (fs, Except.ok []) := by
        simp [applyBlocksF, hTnone]
      rw [hTdone] at hfs
      simpa using hfs
    · rw [if_neg hpre]
      cases hBT : applyBlocksF root ((String.mk (patch_text.data.take b)).data.length + 1)
          (String.mk (patch_text.data.take b)).data fs [] 0 with
      | mk fs2 r2 =>
        have hdt : (String.mk (patch_text.data.take b)).data = patch_text.data.take b := rfl
        rw [hdt] at hBT
        rw [hBT] at hfs
        simp only at hfs
        cases r2 with
        | error e2 => simpa using hfs
        | ok acc2 => simpa using hfs

theorem joinSecs_nil : joinSecs [] = [] := rfl

theorem joinSecs_cons (pc : String × List Char) (rest : List (String × List Char)) :
    joinSecs (pc :: rest) = sectionCore pc.1 pc.2 ++ joinSecs rest := by
  simp [joinSecs]

theorem occursAt_single_iff (l : List Char) (c : Char) (k : Nat) :
    OccursAt l [c] k ↔ l[k]? = some c := by
  unfold OccursAt
  rw [← List.head?_drop]
  constructor
  · rintro ⟨r, hr⟩
    rw [← hr]
    rfl
  · intro h
    cases hd : l.drop k with
    | nil => rw [hd] at h; cases h
    | cons a t =>
      rw [hd] at h
      have hac : a = c := by simpa using h
      exact ⟨t, by subst hac; rfl⟩

theorem findFrom_shift_drop (block pat : List Char) (pos off : Nat) :
    findFrom block pat (pos + off) =
      (findFrom (block.drop pos) pat off).map (fun j => j + pos) := by
  unfold findFrom
  rw [List.drop_drop]
  cases findIdxAux pat (block.drop (pos + off)) 0 with
  | none => simp
  | some j => simp; omega

theorem findFrom_via_drop (block pat : List Char) (pos : Nat) :
    findFrom block pat pos = (findFrom (block.drop pos) pat 0).map (fun j => j + pos) := by
  have := findFrom_shift_drop block pat pos 0
  simpa using this

theorem findFrom_zero_of_pref (l pat : List Char) (h : pat <+: l) :
    findFrom l pat 0 = some 0 :=
  findFrom_eq_some_of l pat 0 0 (Nat.le_refl 0)
    (by unfold OccursAt; simpa using h) (fun k h1 h2 => absurd h2 (by omega))

theorem findFrom_hdr_after_tail (tail : List Char) (rest : List (String × List Char))
    (htail : ∀ c ∈ tail, c ≠ '*') :
    findFrom (tail ++ joinSecs rest) updateHdr 0 =
      (match rest with | [] => none | _ :: _ => some tail.length) := by
  cases rest with
  | nil =>
    rw [joinSecs_nil, List.append_nil]
    cases hF : findFrom tail updateHdr 0 with
    | none => rfl
    | some j =>
      exfalso
      obtain ⟨_, hocc, _⟩ := findFrom_some _ _ _ _ hF
      have hstar : tail[j]? = some '*' := occursAt_head _ _ _ '*' hocc (by decide)
      exact htail '*' (List.getElem?_mem hstar) rfl
  | cons s t =>
    apply findFrom_eq_some_of _ _ _ _ (Nat.zero_le _)
    · unfold OccursAt
      rw [List.drop_left, joinSecs_cons]
      unfold sectionCore
      rw [List.append_assoc]
      exact pref_append _ _
    · intro k _ hk hocc
      have hstar : (tail ++ joinSecs (s :: t))[k]? = some '*' :=
        occursAt_head _ _ _ '*' hocc (by decide)
      rw [List.getElem?_append_left hk] at hstar
      exact htail '*' (List.getElem?_mem hstar) rfl

theorem dropWhile_eq_self_of_head (f : Char → Bool) (l : List Char)
    (h : ∀ c, l.head? = some c → f c = false) : l.dropWhile f = l := by
  cases l with
  | nil => rfl
  | cons a t =>
    rw [List.dropWhile_cons, h a rfl]
    simp

theorem stripBoth_eq_self (f : Char → Bool) (l : List Char)
    (h1 : ∀ c, l.head? = some c → f c = false)
    (h2 : ∀ c, l.getLast? = some c → f c = false) :
    stripBoth f l = l := by
  unfold stripBoth
  rw [dropWhile_eq_self_of_head f l h1]
  rw [dropWhile_eq_self_of_head f l.reverse (by
    intro c hc
    rw [List.head?_reverse] at hc
    exact h2 c hc)]
  exact List.reverse_reverse l

theorem take_at_append (x y : List Char) (n : Nat) (hn : n = x.length) :
    (x ++ y).take n = x := by
  rw [hn]
  exact List.take_left x y

theorem drop_at_append (x y : List Char) (n : Nat) (hn : n = x.length) :
    (x ++ y).drop n = y := by
  rw [hn]
  exact List.drop_left x y

theorem secCore_group (p : String) (d : List Char) :
    sectionCore p d = (updateHdr ++ ' ' :: p.data) ++ '\n' :: d := by
  simp [sectionCore, List.append_assoc]

theorem secCore_drop16 (p : String) (d J : List Char) :
    (sectionCore p d ++ J).drop 16 = (' ' :: (p.data ++ '\n' :: d)) ++ J := by
  rw [show sectionCore p d ++ J = updateHdr ++ ((' ' :: (p.data ++ '\n' :: d)) ++ J) from by
    simp [sectionCore, List.append_assoc]]
  exact drop_at_append _ _ _ rfl

theorem secCore_length (p : String) (d : List Char) :
    (sectionCore p d).length = p.data.length + d.length + 18 := by
  have h16 : updateHdr.length = 16 := rfl
  unfold sectionCore
  simp [List.length_append, h16]
  omega

theorem hdrLine_length (p : String) :
    (updateHdr ++ ' ' :: p.data).length = 17 + p.data.length := by
  have h16 : updateHdr.length = 16 := rfl
  simp [List.length_append, h16]
  omega

theorem secCore_take_line (p : String) (d : List Char) :
    (sectionCore p d).take (17 + p.data.length) = updateHdr ++ ' ' :: p.data := by
  rw [secCore_group]
  exact take_at_append _ _ _ (hdrLine_length p).symm

theorem secCore_drop_line (p : String) (d : List Char) :
    (sectionCore p d).drop (17 + p.data.length + 1) = d := by
  rw [secCore_group]
  rw [show 17 + p.data.length + 1 = (updateHdr ++ ' ' :: p.data).length + 1 from by
    rw [hdrLine_length]]
  rw [← List.drop_drop, List.drop_left]
  rfl

theorem secCore_find_nl (p : String) (hp : ∀ c ∈ p.data, c ≠ '\n') (d : List Char) :
    findFrom (sectionCore p d) ['\n'] 0 = some (17 + p.data.length) := by
  apply findFrom_eq_some_of _ _ _ _ (Nat.zero_le _)
  · rw [occursAt_single_iff]
    rw [secCore_group]
    rw [List.getElem?_append_right (by rw [hdrLine_length])]
    rw [hdrLine_length]
    simp
  · intro k _ hk hocc
    rw [occursAt_single_iff] at hocc
    rw [secCore_group] at hocc
    rw [List.getElem?_append_left (by rw [hdrLine_length]; omega)] at hocc
    have hmem : '\n' ∈ updateHdr ++ ' ' :: p.data := List.getElem?_mem hocc
    rcases List.mem_append.mp hmem with hm | hm
    · exact absurd hm (by decide)
    · rcases List.mem_cons.mp hm with hm2 | hm2
      · cases hm2
      · exact hp '\n' hm2 rfl

theorem splitCompsAux_no_slash (l : List Char) (cur : List Char)
    (h : ∀ c ∈ l, c ≠ '/') : splitCompsAux l cur = [String.mk (cur.reverse ++ l)] := by
  induction l generalizing cur with
  | nil => simp [splitCompsAux]
  | cons c t ih =>
    have hc : c ≠ '/' := h c (by simp)
    rw [show splitCompsAux (c :: t) cur = splitCompsAux t (c :: cur) from by
      simp [splitCompsAux, hc]]
    rw [ih (c :: cur) (fun x hx => h x (by simp [hx]))]
    simp

theorem splitComps_single (p : String) (hne : p ≠ "") (h : ∀ c ∈ p.data, c ≠ '/') :
    splitComps p = [p] := by
  unfold splitComps
  rw [splitCompsAux_no_slash p.data [] h]
  simp [strMk_data, hne]

theorem isAbsPath_false_of (p : String) (hne : p ≠ "") (h : ∀ c ∈ p.data, c ≠ '/') :
    isAbsPath p = false := by
  unfold isAbsPath
  cases hd : p.data with
  | nil =>
    exfalso
    exact hne (by rw [← strMk_data p, hd])
  | cons c t =>
    have hc : c ≠ '/' := h c (by rw [hd]; simp)
    split <;> simp_all

theorem resolveComps_concat (root : List String) (hroot : resolveComps root = root)
    (p : String) (h0 : p ≠ "") (h1 : p ≠ ".") (h2 : p ≠ "..") :
    resolveComps (root ++ [p]) = root ++ [p] := by
  unfold resolveComps at *
  rw [List.foldl_append, hroot]
  simp [resolveStep, h0, h1, h2]

theorem joinComps_cons_concat (r : String) (t : List String) (p : String) :
    joinComps ((r :: t) ++ [p]) = joinComps (r :: t) ++ '/' :: p.data := by
  induction t generalizing r with
  | nil => rfl
  | cons r2 t2 ih =>
    have h1 : joinComps (r :: r2 :: (t2 ++ [p])) =
        r.data ++ '/' :: joinComps (r2 :: (t2 ++ [p])) := rfl
    have h2 : joinComps (r :: r2 :: t2) = r.data ++ '/' :: joinComps (r2 :: t2) := rfl
    show joinComps (r :: r2 :: (t2 ++ [p])) = _
    rw [h1, show r2 :: (t2 ++ [p]) = (r2 :: t2) ++ [p] from rfl, ih r2, h2]
    simp

theorem startswith_pathStr_concat (root : List String) (p : String) :
    startswith (pathStr (root ++ [p])) (pathStr root) = true := by
  unfold startswith pathStr
  rw [isPrefixOf_eq_true]
  show '/' :: joinComps root <+: '/' :: joinComps (root ++ [p])
  cases root with
  | nil => exact ⟨joinComps [p], rfl⟩
  | cons r t =>
    rw [joinComps_cons_concat]
    exact ⟨'/' :: p.data, by simp⟩

theorem validate_path_sane (root : List String) (hroot : resolveComps root = root)
    (p : String) (hp : saneName p) :
    validate_path root p = Except.ok (root ++ [p]) := by
  obtain ⟨h0, h1, h2, hc⟩ := hp
  have hslash : ∀ c ∈ p.data, c ≠ '/' := fun c hcm => (hc c hcm).2.1
  unfold validate_path
  simp [isAbsPath_false_of p h0 hslash, splitComps_single p h0 hslash,
    resolveComps_concat root hroot p h0 h1 h2, startswith_pathStr_concat]

theorem relativeTo_concat (root : List String) (p : String) :
    relativeTo (root ++ [p]) root = Except.ok p := by
  unfold relativeTo
  rw [show root.isPrefixOf (root ++ [p]) = true from isPrefixOf_eq_true.mpr (pref_append _ _)]
  rw [show (root ++ [p]).drop root.length = [p] from List.drop_left _ _]
  simp [String.intercalate, String.intercalate.go]

theorem stripWS_hdr_line (p : String) (h0 : p ≠ "")
    (hws : ∀ c ∈ p.data, c.isWhitespace = false) :
    stripWS (updateHdr ++ ' ' :: p.data) = updateHdr ++ ' ' :: p.data := by
  have hpd : p.data ≠ [] := fun he => h0 (by rw [← strMk_data p, he])
  unfold stripWS
  apply stripBoth_eq_self
  · intro c hc
    have hh : (updateHdr ++ ' ' :: p.data).head? = some '*' := rfl
    rw [hh] at hc
    cases hc
    decide
  · intro c hc
    rw [show updateHdr ++ ' ' :: p.data = (updateHdr ++ [' ']) ++ p.data from by simp] at hc
    rw [List.getLast?_append_of_ne_nil (updateHdr ++ [' ']) hpd] at hc
    exact hws c (List.mem_of_mem_getLast? hc)

theorem stripWS_relpath (p : String) (h0 : p ≠ "")
    (hws : ∀ c ∈ p.data, c.isWhitespace = false) :
    stripWS (' ' :: p.data) = p.data := by
  have hpd : p.data ≠ [] := fun he => h0 (by rw [← strMk_data p, he])
  unfold stripWS stripBoth
  rw [show List.dropWhile Char.isWhitespace (' ' :: p.data) =
      List.dropWhile Char.isWhitespace p.data from by
    rw [List.dropWhile_cons]
    simp]
  rw [dropWhile_eq_self_of_head Char.isWhitespace p.data (by
    intro c hc
    cases hd : p.data with
    | nil => rw [hd] at hc; cases hc
    | cons a t =>
      rw [hd] at hc
      have : a = c := by simpa using hc
      subst this
      exact hws a (by rw [hd]; simp))]
  rw [dropWhile_eq_self_of_head Char.isWhitespace p.data.reverse (by
    intro c hc
    rw [List.head?_reverse] at hc
    exact hws c (List.mem_of_mem_getLast? hc))]
  exact List.reverse_reverse _

theorem isDirFS_iff (fs : FS) (p : List String) : isDirFS fs p = true ↔ p ∈ fs.dirs := by
  unfold isDirFS
  rw [List.any_eq_true]
  constructor
  · rintro ⟨d, hd, he⟩
    simp at he
    rwa [← he]
  · intro hp
    exact ⟨p, hp, by simp⟩

theorem isDirFS_false_iff (fs : FS) (p : List String) :
    isDirFS fs p = false ↔ p ∉ fs.dirs := by
  constructor
  · intro h hmem
    rw [(isDirFS_iff fs p).mpr hmem] at h
    cases h
  · intro h
    cases hb : isDirFS fs p
    · rfl
    · exact absurd ((isDirFS_iff fs p).mp hb) h

theorem lookupFile_eq_none_iff (fs : FS) (q : List String) :
    lookupFile fs q = none ↔ ∀ kv ∈ fs.files, kv.1 ≠ q := by
  unfold lookupFile
  rw [Option.map_eq_none', List.find?_eq_none]
  simp

theorem prefixesIncl_length_le (d : List String) :
    ∀ q ∈ prefixesIncl d, q.length ≤ d.length := by
  induction d with
  | nil =>
    intro q hq
    simp [prefixesIncl] at hq
    simp [hq]
  | cons c t ih =>
    intro q hq
    simp [prefixesIncl] at hq
    rcases hq with h | ⟨q', hq', rfl⟩
    · simp [h]
    · have := ih q' hq'
      simp
      omega

theorem self_mem_prefixesIncl (d : List String) : d ∈ prefixesIncl d := by
  induction d with
  | nil => simp [prefixesIncl]
  | cons c t ih =>
    simp [prefixesIncl]
    exact ih

theorem okFS_step (root : List String) (fs : FS) (names : List String) (p c : String)
    (hok : okFS root fs (p :: names)) :
    okFS root
      ⟨(root ++ [p], c) :: fs.files.filter (fun kv => decide (kv.1 ≠ root ++ [p])),
        prefixesIncl root ++ fs.dirs⟩ names := by
  obtain ⟨h1, h2⟩ := hok
  constructor
  · intro q hq
    have hlq := prefixesIncl_length_le root q hq
    rw [lookupFile_eq_none_iff]
    intro kv hkv
    rcases List.mem_cons.mp hkv with rfl | hkv2
    · intro he
      have : root.length + 1 = q.length := by
        rw [← he]
        simp
      omega
    · exact (lookupFile_eq_none_iff fs q).mp (h1 q hq) kv (List.mem_of_mem_filter hkv2)
  · intro p' hp'
    intro hmem
    rcases List.mem_append.mp hmem with hm | hm
    · have := prefixesIncl_length_le root _ hm
      simp at this
    · exact h2 p' (List.mem_cons_of_mem p hp') hm

theorem sliceL_drop (l : List Char) (a b : Nat) : sliceL l a b = (l.drop a).take (b - a) := by
  unfold sliceL
  rw [List.drop_take]

theorem applySectionsF_nil_done (root : List String) (fuel : Nat) (block : List Char)
    (fs : FS) (acc : List String) (pos : Nat) (h : block.drop pos = []) :
    applySectionsF root fuel block fs acc pos = (fs, Except.ok acc) := by
  cases fuel with
  | zero => rfl
  | succ f =>
    have hF : findFrom block updateHdr pos = none := by
      unfold findFrom
      rw [h]
      rfl
    simp [applySectionsF, hF]


theorem applySectionsF_one_step (root : List String) (hroot : resolveComps root = root)
    (block : List Char) (p : String) (d : List Char) (fs : FS) (acc : List String)
    (pos f : Nat) (nuh : Option Nat)
    (hp : saneName p)
    (hA : findFrom block updateHdr pos = some pos)
    (hB : findFrom block updateHdr (pos + updateHdr.length) = nuh)
    (hC : sliceL block pos (nuh.getD block.length) = sectionCore p d)
    (hfile : ∀ q ∈ prefixesIncl root, lookupFile fs q = none)
    (hndir : (root ++ [p]) ∉ fs.dirs) :
    applySectionsF root (f + 1) block fs acc pos =
      applySectionsF root f block
        ⟨(root ++ [p], String.mk d) ::
          fs.files.filter (fun kv => decide (kv.1 ≠ root ++ [p])),
          prefixesIncl root ++ fs.dirs⟩
        (acc ++ [p]) (nuh.getD block.length) := by
  obtain ⟨hp0, hp1, hp2, hpc⟩ := hp
  have hpws : ∀ c ∈ p.data, c.isWhitespace = false := fun c hc => (hpc c hc).2.2
  have hpnl : ∀ c ∈ p.data, c ≠ '\n' := by
    intro c hc he
    subst he
    exact absurd (hpws '\n' hc) (by decide)
  have hD : findFrom (sectionCore p d) ['\n'] 0 = some (17 + p.data.length) :=
    secCore_find_nl p hpnl d
  have hE : stripWS ((sectionCore p d).take (17 + p.data.length)) =
      updateHdr ++ ' ' :: p.data := by
    rw [secCore_take_line]
    exact stripWS_hdr_line p hp0 hpws
  have hF : updateHdr.isPrefixOf (updateHdr ++ ' ' :: p.data) = true :=
    isPrefixOf_eq_true.mpr (pref_append _ _)
  have hG : String.mk (stripWS ((updateHdr ++ ' ' :: p.data).drop updateHdr.length)) = p := by
    rw [List.drop_left]
    rw [stripWS_relpath p hp0 hpws]
  have hH : validate_path root p = Except.ok (root ++ [p]) :=
    validate_path_sane root hroot p ⟨hp0, hp1, hp2, hpc⟩
  have hI : mkdirP fs (root ++ [p]).dropLast =
      Except.ok ⟨fs.files, prefixesIncl root ++ fs.dirs⟩ := by
    rw [List.dropLast_concat]
    unfold mkdirP
    rw [show (prefixesIncl root).any (fun q => (lookupFile fs q).isSome) = false from by
      rw [List.any_eq_false]
      intro q hq
      rw [hfile q hq]
      simp]
    rfl
  have hJ : write_text ⟨fs.files, prefixesIncl root ++ fs.dirs⟩ (root ++ [p])
      (String.mk ((sectionCore p d).drop (17 + p.data.length + 1))) =
      Except.ok ⟨(root ++ [p], String.mk d) ::
        fs.files.filter (fun kv => decide (kv.1 ≠ root ++ [p])),
        prefixesIncl root ++ fs.dirs⟩ := by
    rw [secCore_drop_line]
    unfold write_text
    rw [show isDirFS ⟨fs.files, prefixesIncl root ++ fs.dirs⟩ (root ++ [p]) = false from by
      rw [isDirFS_false_iff]
      intro hmem
      rcases List.mem_append.mp hmem with hm | hm
      · have := prefixesIncl_length_le root _ hm
        simp at this
      · exact hndir hm]
    rw [show isDirFS ⟨fs.files, prefixesIncl root ++ fs.dirs⟩ (root ++ [p]).dropLast =
        true from by
      rw [List.dropLast_concat, isDirFS_iff]
      exact List.mem_append_left _ (self_mem_prefixesIncl root)]
    rfl
  have hK : relativeTo (root ++ [p]) root = Except.ok p := relativeTo_concat root p
  simp only [applySectionsF, hA, hB, hC, hD, hE, hF, hG, hH, hI, hJ, hK]
  simp

theorem applySectionsF_run (root : List String) (hroot : resolveComps root = root)
    (block : List Char) :
    ∀ (secs : List (String × List Char)) (fuel pos : Nat) (fs : FS) (acc : List String),
      block.drop pos = joinSecs secs →
      secs.length < fuel →
      (∀ pc ∈ secs, saneName pc.1 ∧ ∀ ch ∈ pc.2, ch ≠ '*') →
      okFS root fs (secs.map Prod.fst) →
      (applySectionsF root fuel block fs acc pos).2 =
        Except.ok (acc ++ secs.map Prod.fst) := by
  intro secs
  induction secs with
  | nil =>
    intro fuel pos fs acc hdrop _ _ _
    rw [applySectionsF_nil_done root fuel block fs acc pos (by rw [hdrop]; rfl)]
    simp
  | cons pc rest ih =>
    intro fuel pos fs acc hdrop hfuel hsane hok
    obtain ⟨p, d⟩ := pc
    cases fuel with
    | zero => simp at hfuel
    | succ f =>
    have hsp : saneName p := (hsane (p, d) (by simp)).1
    have hsd : ∀ ch ∈ d, ch ≠ '*' := (hsane (p, d) (by simp)).2
    have hpstar : ∀ c ∈ p.data, c ≠ '*' := fun c hc => (hsp.2.2.2 c hc).1
    rw [joinSecs_cons] at hdrop
    dsimp only at hdrop
    have htail_star : ∀ c ∈ (' ' :: (p.data ++ '\n' :: d)), c ≠ '*' := by
      intro c hc
      rcases List.mem_cons.mp hc with rfl | hc2
      · decide
      · rcases List.mem_append.mp hc2 with hm | hm
        · exact hpstar c hm
        · rcases List.mem_cons.mp hm with rfl | hm2
          · decide
          · exact hsd c hm2
    have hA : findFrom block updateHdr pos = some pos := by
      rw [findFrom_via_drop, hdrop]
      rw [findFrom_zero_of_pref _ _ (by
        rw [secCore_group]
        simp only [List.append_assoc]
        exact pref_append _ _)]
      simp
    have hokfs' : okFS root (⟨(root ++ [p], String.mk d) ::
        fs.files.filter (fun kv => decide (kv.1 ≠ root ++ [p])),
        prefixesIncl root ++ fs.dirs⟩ : FS) (rest.map Prod.fst) := by
      apply okFS_step root fs (rest.map Prod.fst) p (String.mk d)
      simpa using hok
    have hsane' : ∀ pc ∈ rest, saneName pc.1 ∧ ∀ ch ∈ pc.2, ch ≠ '*' :=
      fun pc hpc => hsane pc (List.mem_cons_of_mem _ hpc)
    cases rest with
    | nil =>
      have hB : findFrom block updateHdr (pos + updateHdr.length) = none := by
        rw [show updateHdr.length = 16 from rfl]
        rw [findFrom_shift_drop block updateHdr pos 16, hdrop]
        rw [findFrom_via_drop (sectionCore p d ++ joinSecs []) updateHdr 16]
        rw [secCore_drop16]
        rw [findFrom_hdr_after_tail _ [] htail_star]
        rfl
      have hC : sliceL block pos ((none : Option Nat).getD block.length) =
          sectionCore p d := by
        show sliceL block pos block.length = sectionCore p d
        rw [sliceL_drop, hdrop]
        rw [joinSecs_nil, List.append_nil] at hdrop ⊢
        have hlen : (sectionCore p d).length = block.length - pos := by
          rw [← hdrop]
          exact List.length_drop pos block
        exact List.take_of_length_le (by omega)
      rw [applySectionsF_one_step root hroot block p d fs acc pos f none hsp hA hB hC
        hok.1 (hok.2 p (by simp))]
      rw [applySectionsF_nil_done root f block _ (acc ++ [p])
        ((none : Option Nat).getD block.length) (by
          show block.drop block.length = []
          exact List.drop_length block)]
      simp
    | cons s t =>
      have hB : findFrom block updateHdr (pos + updateHdr.length) =
          some (pos + (sectionCore p d).length) := by
        rw [show updateHdr.length = 16 from rfl]
        rw [findFrom_shift_drop block updateHdr pos 16, hdrop]
        rw [findFrom_via_drop (sectionCore p d ++ joinSecs (s :: t)) updateHdr 16]
        rw [secCore_drop16]
        rw [findFrom_hdr_after_tail _ (s :: t) htail_star]
        rw [secCore_length]
        simp [List.length_cons, List.length_append]
        omega
      have hC : sliceL block pos ((some (pos + (sectionCore p d).length)).getD block.length)
          = sectionCore p d := by
        show sliceL block pos (pos + (sectionCore p d).length) = sectionCore p d
        rw [sliceL_drop, hdrop]
        exact take_at_append _ _ _ (by omega)
      rw [applySectionsF_one_step root hroot block p d fs acc pos f
        (some (pos + (sectionCore p d).length)) hsp hA hB hC hok.1 (hok.2 p (by simp))]
      have hdrop' : block.drop ((some (pos + (sectionCore p d).length)).getD block.length)
          = joinSecs (s :: t) := by
        show block.drop (pos + (sectionCore p d).length) = joinSecs (s :: t)
        rw [← List.drop_drop, hdrop]
        exact drop_at_append _ _ _ rfl
      rw [ih f ((some (pos + (sectionCore p d).length)).getD block.length) _ (acc ++ [p])
        hdrop' (by simp at hfuel ⊢; omega) hsane' hokfs']
      simp

theorem occursAt_drop (l pat : List Char) (s k : Nat) (hs : s ≤ k)
    (h : OccursAt l pat k) : OccursAt (l.drop s) pat (k - s) := by
  unfold OccursAt at *
  rw [List.drop_drop, show s + (k - s) = k from by omega]
  exact h

theorem occursAt_append_left (l r pat : List Char) (j : Nat) (hj : j ≤ l.length)
    (h : OccursAt l pat j) : OccursAt (l ++ r) pat j := by
  unfold OccursAt at *
  rw [List.drop_append_of_le_length hj]
  exact h.trans (pref_append _ _)

theorem findFrom_none_at_end (l pat : List Char) (idx : Nat) (hpat : pat ≠ [])
    (h : l.length ≤ idx) : findFrom l pat idx = none := by
  cases hF : findFrom l pat idx with
  | none => rfl
  | some j =>
    obtain ⟨h1, h2, _⟩ := findFrom_some l pat idx j hF
    have := occurs_len l pat j hpat h2
    have hpos : 0 < pat.length := List.length_pos.mpr hpat
    omega

theorem applyBlocksF_done_le (root : List String) (fuel : Nat) (patch : List Char)
    (fs : FS) (acc : List String) (idx : Nat) (h : patch.length ≤ idx) :
    applyBlocksF root fuel patch fs acc idx = (fs, Except.ok acc) := by
  cases fuel with
  | zero => rfl
  | succ f =>
    simp [applyBlocksF, findFrom_none_at_end patch beginMarker idx (by decide) h]

theorem secCore_ne_nil (p : String) (d : List Char) : sectionCore p d ≠ [] := by
  intro h
  have := secCore_length p d
  rw [h] at this
  simp at this

theorem joinSecs_ne_nil (secs : List (String × List Char)) (h : secs ≠ []) :
    joinSecs secs ≠ [] := by
  cases secs with
  | nil => exact absurd rfl h
  | cons pc rest =>
    rw [joinSecs_cons]
    intro hnil
    rw [List.append_eq_nil] at hnil
    exact secCore_ne_nil pc.1 pc.2 hnil.1

theorem blockSecs_ne_nil (x : String × String) (t : List (String × String)) :
    blockSecs (x :: t) ≠ [] := by
  cases t <;> simp [blockSecs]

theorem joinSecs_length_ge (secs : List (String × List Char)) :
    secs.length ≤ (joinSecs secs).length := by
  induction secs with
  | nil => simp [joinSecs_nil]
  | cons pc rest ih =>
    rw [joinSecs_cons, List.length_append, List.length_cons]
    have := secCore_length pc.1 pc.2
    omega

theorem blockSecs_map_fst : ∀ l : List (String × String),
    (blockSecs l).map Prod.fst = l.map Prod.fst
  | [] => rfl
  | [_] => rfl
  | pc :: x :: t => by
    rw [show blockSecs (pc :: x :: t) =
      (pc.1, pc.2.data ++ ['\n']) :: blockSecs (x :: t) from rfl]
    rw [List.map_cons, List.map_cons, blockSecs_map_fst (x :: t)]

theorem secCore_no_star (p : String) (d : List Char) (hp : ∀ c ∈ p.data, c ≠ '*')
    (hd : ∀ c ∈ d, c ≠ '*') (j : Nat) (h3 : 3 ≤ j)
    (h : (sectionCore p d)[j]? = some '*') : False := by
  have hmem : '*' ∈ (sectionCore p d).drop 3 := by
    have hidx : ((sectionCore p d).drop 3)[j - 3]? = some '*' := by
      rw [List.getElem?_drop, show 3 + (j - 3) = j from by omega]
      exact h
    exact List.getElem?_mem hidx
  have hshape : (sectionCore p d).drop 3 =
      updateHdr.drop 3 ++ (' ' :: p.data ++ '\n' :: d) := by
    rw [show sectionCore p d = updateHdr ++ (' ' :: p.data ++ '\n' :: d) from by
      unfold sectionCore
      rw [List.append_assoc]]
    rw [List.drop_append_of_le_length (by decide)]
  rw [hshape] at hmem
  rcases List.mem_append.mp hmem with hm | hm
  · revert hm
    decide
  · rcases List.mem_append.mp hm with hm2 | hm2
    · rcases List.mem_cons.mp hm2 with h1 | hm3
      · exact absurd h1 (by decide)
      · exact hp '*' hm3 rfl
    · rcases List.mem_cons.mp hm2 with h2 | hm4
      · exact absurd h2 (by decide)
      · exact hd '*' hm4 rfl

theorem joinSecs_star_hdr (secs : List (String × List Char))
    (hsane : ∀ pc ∈ secs, saneName pc.1 ∧ ∀ ch ∈ pc.2, ch ≠ '*') :
    ∀ j, (joinSecs secs)[j]? = some '*' →
      ∃ q, OccursAt (joinSecs secs) updateHdr q ∧ q ≤ j ∧ j < q + 3 := by
  induction secs with
  | nil =>
    intro j hstar
    simp [joinSecs_nil] at hstar
  | cons pc rest ih =>
    obtain ⟨p, d⟩ := pc
    intro j hstar
    have hp : ∀ c ∈ p.data, c ≠ '*' :=
      fun c hc => ((hsane (p, d) (by simp)).1.2.2.2 c hc).1
    have hd : ∀ c ∈ d, c ≠ '*' := (hsane (p, d) (by simp)).2
    rw [joinSecs_cons] at hstar ⊢
    by_cases hj : j < (sectionCore p d).length
    · rw [List.getElem?_append_left hj] at hstar
      have hj3 : j < 3 := by
        by_contra h3
        exact secCore_no_star p d hp hd j (by omega) hstar
      refine ⟨0, ?_, Nat.zero_le j, by omega⟩
      unfold OccursAt
      rw [List.drop_zero, secCore_group, List.append_assoc, List.append_assoc]
      exact pref_append _ _
    · push_neg at hj
      have hstar2 : (joinSecs rest)[j - (sectionCore p d).length]? = some '*' := by
        rw [List.getElem?_append_right hj] at hstar
        exact hstar
      obtain ⟨q, hq, hq1, hq2⟩ :=
        ih (fun pc hpc => hsane pc (List.mem_cons_of_mem _ hpc)) _ hstar2
      refine ⟨(sectionCore p d).length + q, ?_, by omega, by omega⟩
      exact occursAt_append_right _ _ _ _ hq

theorem joinSecs_head (secs : List (String × List Char)) (h : secs ≠ []) :
    (joinSecs secs).head? = some '*' := by
  cases secs with
  | nil => exact absurd rfl h
  | cons pc rest =>
    rw [joinSecs_cons]
    rw [show sectionCore pc.1 pc.2 =
      '*' :: ("** Update File:".data ++ (' ' :: pc.1.data ++ '\n' :: pc.2)) from by
        rw [show sectionCore pc.1 pc.2 =
          updateHdr ++ (' ' :: pc.1.data ++ '\n' :: pc.2) from by
            unfold sectionCore
            rw [List.append_assoc]]
        rfl]
    rfl

theorem saneContent_data_ne_nil (c : String) (h : saneContent c) : c.data ≠ [] := by
  intro hnil
  apply h.1
  cases c with
  | mk l =>
    simp at hnil
    rw [hnil]

theorem joinSecs_last_ne_nl (secs : List (String × List Char))
    (h : ∀ pc, secs.getLast? = some pc → pc.2 ≠ [] ∧ pc.2.getLast? ≠ some '\n') :
    ∀ c, (joinSecs secs).getLast? = some c → c ≠ '\n' := by
  induction secs with
  | nil =>
    intro c hc
    simp [joinSecs_nil] at hc
  | cons pc rest ih =>
    intro c hc
    cases rest with
    | nil =>
      obtain ⟨p, d⟩ := pc
      obtain ⟨hne, hnl⟩ := h (p, d) rfl
      rw [joinSecs_cons, joinSecs_nil, List.append_nil] at hc
      rw [show sectionCore p d = (updateHdr ++ ' ' :: p.data ++ ['\n']) ++ d from by
        unfold sectionCore
        simp] at hc
      rw [List.getLast?_append_of_ne_nil _ hne] at hc
      intro hcn
      rw [hcn] at hc
      exact hnl hc
    | cons s t =>
      rw [joinSecs_cons] at hc
      rw [List.getLast?_append_of_ne_nil _
        (joinSecs_ne_nil (s :: t) (by simp))] at hc
      exact ih (fun pc' hpc' => h pc' (by rw [List.getLast?_cons_cons]; exact hpc')) c hc

theorem blockSecs_getLast : ∀ l : List (String × String), ∀ pc',
    (blockSecs l).getLast? = some pc' → ∃ pc ∈ l, pc' = (pc.1, pc.2.data)
  | [], pc', h => by simp [blockSecs] at h
  | [pc], pc', h => by
    refine ⟨pc, by simp, ?_⟩
    rw [show blockSecs [pc] = [(pc.1, pc.2.data)] from rfl] at h
    simp at h
    rw [h]
  | pc :: x :: t, pc', h => by
    rw [show blockSecs (pc :: x :: t) =
      (pc.1, pc.2.data ++ ['\n']) :: blockSecs (x :: t) from rfl] at h
    rw [show (pc.1, pc.2.data ++ ['\n']) :: blockSecs (x :: t) =
      [(pc.1, pc.2.data ++ ['\n'])] ++ blockSecs (x :: t) from rfl] at h
    rw [List.getLast?_append_of_ne_nil _ (blockSecs_ne_nil x t)] at h
    obtain ⟨q, hq, hq2⟩ := blockSecs_getLast (x :: t) pc' h
    exact ⟨q, List.mem_cons_of_mem _ hq, hq2⟩

theorem blockSecs_sane : ∀ l : List (String × String),
    (∀ pc ∈ l, saneName pc.1 ∧ saneContent pc.2) →
    ∀ pc ∈ blockSecs l, saneName pc.1 ∧ ∀ ch ∈ pc.2, ch ≠ '*'
  | [], _, pc, hpc => by simp [blockSecs] at hpc
  | [x], h, pc, hpc => by
    rw [show blockSecs [x] = [(x.1, x.2.data)] from rfl] at hpc
    simp at hpc
    rw [hpc]
    exact ⟨(h x (by simp)).1, (h x (by simp)).2.2.2⟩
  | x :: y :: t, h, pc, hpc => by
    rw [show blockSecs (x :: y :: t) =
      (x.1, x.2.data ++ ['\n']) :: blockSecs (y :: t) from rfl] at hpc
    rcases List.mem_cons.mp hpc with h1 | h2
    · rw [h1]
      refine ⟨(h x (by simp)).1, ?_⟩
      intro ch hch
      rcases List.mem_append.mp hch with hm | hm
      · exact (h x (by simp)).2.2.2 ch hm
      · rcases List.mem_cons.mp hm with h3 | h3
        · rw [h3]; decide
        · simp at h3
    · exact blockSecs_sane (y :: t) (fun q hq => h q (List.mem_cons_of_mem _ hq)) pc h2

theorem mkSections_flatten : ∀ l : List (String × String), l ≠ [] →
    (l.map mkSection).flatten = joinSecs (blockSecs l) ++ ['\n']
  | [], h => absurd rfl h
  | [pc], _ => by
    rw [show blockSecs [pc] = [(pc.1, pc.2.data)] from rfl]
    simp [mkSection, joinSecs, sectionCore]
  | pc :: x :: t, _ => by
    rw [show blockSecs (pc :: x :: t) =
      (pc.1, pc.2.data ++ ['\n']) :: blockSecs (x :: t) from rfl]
    rw [joinSecs_cons, List.map_cons, List.flatten_cons,
      mkSections_flatten (x :: t) (by simp)]
    rw [show mkSection pc = sectionCore pc.1 (pc.2.data ++ ['\n']) from rfl]
    simp [List.append_assoc]

theorem strip_wrap (S : List Char) (hS : S ≠ [])
    (hhead : ∀ c, S.head? = some c → c ≠ '\n')
    (hlast : ∀ c, S.getLast? = some c → c ≠ '\n') :
    stripNLs ('\n' :: (S ++ ['\n'])) = S := by
  unfold stripNLs stripBoth
  have h1 : List.dropWhile (fun c => decide (c = '\n')) ('\n' :: (S ++ ['\n'])) =
      S ++ ['\n'] := by
    rw [List.dropWhile_cons, if_pos (by decide)]
    apply dropWhile_eq_self_of_head
    intro c hc
    cases S with
    | nil => exact absurd rfl hS
    | cons a tl =>
      simp only [List.cons_append, List.head?_cons, Option.some.injEq] at hc
      simp only [decide_eq_false_iff_not]
      rw [← hc]
      exact hhead a rfl
  rw [h1]
  rw [show (S ++ ['\n']).reverse = '\n' :: S.reverse from by simp]
  rw [List.dropWhile_cons, if_pos (by decide)]
  rw [dropWhile_eq_self_of_head _ _ (by
    intro c hc
    rw [List.head?_reverse] at hc
    simp only [decide_eq_false_iff_not]
    exact hlast c hc)]
  exact List.reverse_reverse S

theorem first_end_pos (secs : List (String × List Char))
    (hsane : ∀ pc ∈ secs, saneName pc.1 ∧ ∀ ch ∈ pc.2, ch ≠ '*') :
    findFrom ((beginMarker ++ '\n' :: (joinSecs secs ++ ['\n'])) ++ endMarker)
      endMarker 0 = some (17 + (joinSecs secs).length) := by
  have hBlen : (beginMarker ++ '\n' :: (joinSecs secs ++ ['\n'])).length =
      17 + (joinSecs secs).length := by
    have hb : beginMarker.length = 15 := rfl
    simp only [List.length_append, List.length_cons, List.length_nil, hb]
    omega
  apply findFrom_eq_some_of _ _ _ _ (Nat.zero_le _)
  · unfold OccursAt
    rw [drop_at_append _ _ _ hBlen.symm]
  · intro k _ hk hocc
    by_cases hk3 : k < 3
    · exact end_not_near_begin _ 0 k (by
        unfold OccursAt
        rw [List.drop_zero, List.append_assoc]
        exact pref_append _ _) hocc (Nat.zero_le k) (by omega)
    · push_neg at hk3
      by_cases hk16 : k < 16
      · have hstar := occursAt_head _ _ _ '*' hocc (by decide)
        rw [show (beginMarker ++ '\n' :: (joinSecs secs ++ ['\n'])) ++ endMarker =
          (beginMarker ++ ['\n']) ++ ((joinSecs secs ++ ['\n']) ++ endMarker) from by
            simp] at hstar
        rw [List.getElem?_append_left (by
          rw [show (beginMarker ++ ['\n']).length = 16 from rfl]
          omega)] at hstar
        exact (show ∀ m, m < 16 → 3 ≤ m → ¬ ((beginMarker ++ ['\n'])[m]? = some '*')
          from by decide) k hk16 hk3 hstar
      · push_neg at hk16
        have hocc16 : OccursAt (joinSecs secs ++ '\n' :: endMarker) endMarker (k - 16) := by
          have h1 := occursAt_drop _ endMarker 16 k hk16 hocc
          rw [show ((beginMarker ++ '\n' :: (joinSecs secs ++ ['\n'])) ++ endMarker).drop 16 =
            joinSecs secs ++ '\n' :: endMarker from by
              rw [show (beginMarker ++ '\n' :: (joinSecs secs ++ ['\n'])) ++ endMarker =
                (beginMarker ++ ['\n']) ++ (joinSecs secs ++ '\n' :: endMarker) from by simp]
              exact drop_at_append _ _ _ rfl] at h1
          exact h1
        by_cases hkS : k - 16 < (joinSecs secs).length
        · have hstar := occursAt_head _ _ _ '*' hocc16 (by decide)
          rw [List.getElem?_append_left hkS] at hstar
          obtain ⟨q, hq, hq1, hq2⟩ := joinSecs_star_hdr secs hsane (k - 16) hstar
          have hqlen : q + 16 ≤ (joinSecs secs).length :=
            occurs_len (joinSecs secs) updateHdr q (by decide) hq
          exact end_not_near_hdr (joinSecs secs ++ '\n' :: endMarker) q (k - 16)
            (occursAt_append_left _ _ _ q (by omega) hq) hocc16 hq1 hq2
        · have hkeq : k - 16 = (joinSecs secs).length := by omega
          have hstar := occursAt_head _ _ _ '*' hocc16 (by decide)
          rw [hkeq] at hstar
          rw [List.getElem?_append_right (Nat.le_refl _)] at hstar
          simp at hstar

/-- C8: `apply_patch` appends one entry to `updatedPaths` per `Update File`
section it applies: on a single-block patch built from the section list `l`
(sane single-component names, `*`-free contents, compatible filesystem) the
result is `success` with `updatedPaths = l.map Prod.fst`, so a path named by
`k` sections appears `k` times, each entry relative to the sandbox root. -/
theorem c8_updated_per_section (root : List String) (hroot : resolveComps root = root)
    (fs : FS) (l : List (String × String)) (hl : l ≠ [])
    (hsane : ∀ pc ∈ l, saneName pc.1 ∧ saneContent pc.2)
    (hok : okFS root fs (l.map Prod.fst)) :
    (handle_apply_patch root fs (mkPatch l)).2 =
      Except.ok { success := true, updated := l.map Prod.fst } := by
  have hsecs_ne : blockSecs l ≠ [] := by
    cases l with
    | nil => exact absurd rfl hl
    | cons x t => exact blockSecs_ne_nil x t
  have hsane2 : ∀ pc ∈ blockSecs l, saneName pc.1 ∧ ∀ ch ∈ pc.2, ch ≠ '*' :=
    blockSecs_sane l hsane
  have hdata : (mkPatch l).data =
      (beginMarker ++ '\n' :: (joinSecs (blockSecs l) ++ ['\n'])) ++ endMarker := by
    rw [show (mkPatch l).data =
      beginMarker ++ '\n' :: ((l.map mkSection).flatten ++ endMarker) from rfl]
    rw [mkSections_flatten l hl]
    simp
  have hE : findFrom (mkPatch l).data endMarker 0 =
      some (17 + (joinSecs (blockSecs l)).length) := by
    rw [hdata]
    exact first_end_pos (blockSecs l) hsane2
  have hB0 : findFrom (mkPatch l).data beginMarker 0 = some 0 := by
    apply findFrom_zero_of_pref
    rw [hdata, List.append_assoc]
    exact pref_append _ _
  have hne : mkPatch l ≠ "" := by
    intro h0
    have hd0 : (mkPatch l).data = [] := by rw [h0]
    rw [hdata] at hd0
    simp at hd0
  have hblock : stripNLs (sliceL (mkPatch l).data beginMarker.length
      (17 + (joinSecs (blockSecs l)).length)) = joinSecs (blockSecs l) := by
    have hsl : sliceL (mkPatch l).data beginMarker.length
        (17 + (joinSecs (blockSecs l)).length) =
        '\n' :: (joinSecs (blockSecs l) ++ ['\n']) := by
      unfold sliceL
      rw [hdata]
      rw [take_at_append _ _ _ (by
        have hb : beginMarker.length = 15 := rfl
        simp only [List.length_append, List.length_cons, List.length_nil, hb]
        omega)]
      exact drop_at_append _ _ _ rfl
    rw [hsl]
    exact strip_wrap _ (joinSecs_ne_nil _ hsecs_ne)
      (fun c hc hcn => by
        rw [joinSecs_head _ hsecs_ne] at hc
        rw [hcn] at hc
        exact absurd hc (by decide))
      (joinSecs_last_ne_nl (blockSecs l) (fun pc hpc => by
        obtain ⟨q, hq, hq2⟩ := blockSecs_getLast l pc hpc
        rw [hq2]
        exact ⟨saneContent_data_ne_nil q.2 (hsane q hq).2, (hsane q hq).2.2.1⟩))
  have hrun := applySectionsF_run root hroot (joinSecs (blockSecs l)) (blockSecs l)
    ((joinSecs (blockSecs l)).length + 1) 0 fs []
    (by rw [List.drop_zero])
    (by have := joinSecs_length_ge (blockSecs l); omega)
    hsane2
    (by rw [blockSecs_map_fst]; exact hok)
  have hfinal : ∀ F : Nat, (applyBlocksF root (F + 1)
      (mkPatch l).data fs [] 0).2 = Except.ok (l.map Prod.fst) := by
    intro F
    simp only [applyBlocksF, hB0, hE, Nat.zero_add]
    rw [hblock]
    cases hS : applySectionsF root ((joinSecs (blockSecs l)).length + 1)
        (joinSecs (blockSecs l)) fs [] 0 with
    | mk fs1 r =>
      rw [hS] at hrun
      dsimp only at hrun
      subst hrun
      dsimp only
      rw [applyBlocksF_done_le root _ _ fs1 _ _ (by
        rw [hdata]
        have hb : beginMarker.length = 15 := rfl
        have he : endMarker.length = 13 := rfl
        simp only [List.length_append, List.length_cons, List.length_nil, hb, he]
        omega)]
      simp [blockSecs_map_fst]
  unfold handle_apply_patch
  rw [if_neg (by
    intro hcon
    rcases hcon with h1 | h2
    · exact hne h1
    · rw [hB0] at h2
      cases h2)]
  have hfin2 := hfinal (mkPatch l).data.length
  cases hF : applyBlocksF root ((mkPatch l).data.length + 1) (mkPatch l).data fs [] 0 with
  | mk fs2 r2 =>
    rw [hF] at hfin2
    dsimp only at hfin2
    subst hfin2
    rfl

/-- Witness for C8 at concrete inputs: two sections naming the same path
produce that path twice in `updatedPaths`. -/
theorem c8_witness :
    (handle_apply_patch ["sb"] fsW (mkPatch [("a.txt", "x"), ("a.txt", "y")])).2 =
      Except.ok { success := true, updated := ["a.txt", "a.txt"] } :=
  c8_updated_per_section ["sb"] (by decide) fsW [("a.txt", "x"), ("a.txt", "y")]
    (by decide)
    (by
      intro pc hpc
      fin_cases hpc <;>
        exact ⟨⟨by decide, by decide, by decide, by decide⟩,
          by decide, by decide, by decide⟩)
    ⟨by decide, by decide⟩

/-- Witness for C4's amended theorem: the patch `"*** Begin Patch\nX"` has a
begin marker at 0 and no end marker, so `apply_patch` errors and the
filesystem equals the one produced by the patch truncated before the block. -/
theorem c4_unclosed_witness :
    OccursAt "*** Begin Patch\nX".data beginMarker 0 ∧
    findFrom "*** Begin Patch\nX".data endMarker 0 = none ∧
    (∃ msg, (handle_apply_patch ["sb"] fsW "*** Begin Patch\nX").2 = Except.error msg) ∧
    (handle_apply_patch ["sb"] fsW "*** Begin Patch\nX").1 =
      (handle_apply_patch ["sb"] fsW (String.mk ("*** Begin Patch\nX".data.take 0))).1 :=
  ⟨⟨"\nX".data, by decide⟩, by decide,
    c4_unclosed_block_amended ["sb"] fsW "*** Begin Patch\nX" 0 ⟨"\nX".data, by decide⟩
      (fun e _ => findFrom_none _ endMarker 0 (by decide) e (Nat.zero_le e))⟩
